import Mathlib

/-!
Verification of the clique / independent-set / vertex-cover core of the
Graph_Prj repository (src/src/clique.c, src/src/independent_set.c,
src/src/vertex_cover.c, src/src/set_utils.c).

The shallow embedding below translates each C routine into an executable
Lean function.  A C `Graph` is a structure holding the node count, the
boolean adjacency matrix (modelled as a total function `Nat → Nat → Bool`;
only indices below `node_count` are ever consulted by the algorithms) and
the directedness flags.  A C `Set` (a push/pop vertex container) is a
`List Nat` in push order; every call site in the translated code allocates
capacities at least as large as the number of elements ever pushed, so the
capacity field is not represented.

Recursive C procedures are modelled with an explicit fuel argument.  The C
recursion of the clique enumerators strictly decreases the candidate-list
length on irreflexive adjacency matrices (the only ones the repository
constructs), so the entry points pass fuel `P.length + 1`; all theorems are
proved under the hypothesis that the fuel dominates the candidate count,
which the entry points satisfy, hence the fuel cutoff branch is never
taken in any proved statement.
-/

/-- Graph structure from include/structs.h: adjacency matrix, node count,
directedness flags. -/
structure Graph where
  node_count : Nat
  adjacency : Nat → Nat → Bool
  is_directed : Bool
  allow_bidirectional : Bool

/-- A list is a clique of `G`: every pair of distinct members is adjacent. -/
def IsCliqueL (G : Graph) (R : List Nat) : Prop :=
  ∀ a ∈ R, ∀ b ∈ R, a ≠ b → G.adjacency a b = true

/-- Vertex `x` is adjacent to every member of `R`. -/
def AllAdj (G : Graph) (x : Nat) (R : List Nat) : Prop :=
  ∀ r ∈ R, G.adjacency x r = true

instance (G : Graph) (R : List Nat) : Decidable (IsCliqueL G R) := by
  unfold IsCliqueL; infer_instance

instance (G : Graph) (x : Nat) (R : List Nat) : Decidable (AllAdj G x R) := by
  unfold AllAdj; infer_instance

/-- Removal of vertex `v` from candidate list `P` as in find_maximal_cliques
(clique.c lines 266-272): the first cell holding `v` is overwritten with the
last element and the length shrinks by one; if `v` is absent the list is
unchanged. -/
def swapRemove : List Nat → Nat → List Nat
  | [], _ => []
  | p :: ps, v =>
    if p = v then
      match ps.getLast? with
      | none => []
      | some z => z :: ps.dropLast
    else p :: swapRemove ps v

/-- Pivot selection of find_maximal_cliques (clique.c lines 178-202): scan
candidates then excluded, keep the vertex with strictly largest neighbour
count inside `P`; `none` models the initial value -1 (kept only when both
lists are empty). -/
def pivot (G : Graph) (P S : List Nat) : Option Nat :=
  ((P ++ S).foldl
    (fun st x =>
      let c : Int := ((P.filter (fun w => G.adjacency x w)).length : Int)
      if st.2 < c then (some x, c) else st)
    (none, -1)).1

/-- Candidate loop of find_maximal_cliques (clique.c lines 228-280): for each
candidate `v` run `rec` (the enumerator one fuel level down) on `C ++ [v]`,
`P ∩ N(v)`, `S ∩ N(v)` (intersections taken on the current `P`,`S`), then
move `v` from `P` to `S`. -/
def bkLoop (G : Graph) (rec : List Nat → List Nat → List Nat → List (List Nat))
    (C : List Nat) : List Nat → List Nat → List Nat → List (List Nat)
  | [], _, _ => []
  | v :: rest, P, S =>
    rec (C ++ [v]) (P.filter (fun w => G.adjacency v w))
        (S.filter (fun w => G.adjacency v w))
      ++ bkLoop G rec C rest (swapRemove P v) (S ++ [v])

/-- Bron–Kerbosch enumerator find_maximal_cliques (clique.c lines 157-283),
fuel-bounded.  Records `C` when `P` and `S` are both empty; otherwise picks
the pivot, filters the candidates not adjacent to it, and runs the loop. -/
def bkAux (G : Graph) : Nat → List Nat → List Nat → List Nat → List (List Nat)
  | 0 => fun _ _ _ => []
  | f + 1 => fun C P S =>
    if P.length = 0 ∧ S.length = 0 then [C]
    else
      let u := pivot G P S
      bkLoop G (bkAux G f) C
        (P.filter (fun v =>
          match u with
          | none => true
          | some x => !G.adjacency x v)) P S

/-- Entry wrapper for find_maximal_cliques; the C recursion depth is bounded
by the candidate count on irreflexive adjacency, so `P.length + 1` fuel is
never exhausted. -/
def find_maximal_cliques (G : Graph) (C P S : List Nat) : List (List Nat) :=
  bkAux G (P.length + 1) C P S

/-- Candidate loop of find_all_cliques (clique.c lines 74-130): the loop
always processes the head of the current candidate list (the shift-removal
together with `i--` keeps the index at the front), computing `P ∩ N(v)` on
the list still containing `v` and moving `v` to `S` afterwards; `rec` is
the enumerator one fuel level down. -/
def allLoop (G : Graph) (rec : List Nat → List Nat → List Nat → List (List Nat))
    (C : List Nat) : List Nat → List Nat → List (List Nat)
  | [], _ => []
  | v :: rest, S =>
    rec (C ++ [v]) ((v :: rest).filter (fun w => G.adjacency v w))
        (S.filter (fun w => G.adjacency v w))
      ++ allLoop G rec C rest (S ++ [v])

/-- Exhaustive enumerator find_all_cliques (clique.c lines 52-131),
fuel-bounded: records `C` whenever non-empty, then extends with each
candidate in order. -/
def allCliquesAux (G : Graph) : Nat → List Nat → List Nat → List Nat → List (List Nat)
  | 0 => fun _ _ _ => []
  | f + 1 => fun C P S =>
    (if C.length > 0 then [C] else []) ++ allLoop G (allCliquesAux G f) C P S

/-- Entry wrapper for find_all_cliques with the same fuel discipline. -/
def find_all_cliques (G : Graph) (C P S : List Nat) : List (List Nat) :=
  allCliquesAux G (P.length + 1) C P S

/-- Size of the best clique held so far in find_maximum_clique's selection
scan (clique.c lines 330-339); `none` models the initial NULL with size 0. -/
def bestSize : Option (List Nat) → Nat
  | none => 0
  | some c => c.length

/-- find_maximum_clique (clique.c lines 297-354): run the pivoted enumerator
from `C = ∅`, `P = {0..n-1}`, `S = ∅`, then return the first recorded clique
of strictly maximal size, or NULL when every recorded clique is empty. -/
def find_maximum_clique (G : Graph) : Option (List Nat) :=
  let cliques := find_maximal_cliques G [] (List.range G.node_count) []
  cliques.foldl (fun best c => if c.length > bestSize best then some c else best) none

/-- Complement adjacency matrix (independent_set.c lines 38-43): zero on the
diagonal, flipped off the diagonal. -/
def complementAdj (G : Graph) : Nat → Nat → Bool :=
  fun i j => if i = j then false else !G.adjacency i j

/-- The complement graph value built by create_complement_graph: same vertex
count, undirected, complemented matrix. -/
def compGraph (G : Graph) : Graph :=
  { node_count := G.node_count, adjacency := complementAdj G,
    is_directed := false, allow_bidirectional := false }

/-- create_complement_graph (independent_set.c lines 26-46): same vertex
count, undirected, edge (i,j), i ≠ j, present iff absent in the source,
no self-loops; rejects directed input. -/
def create_complement_graph (G : Graph) : Option Graph :=
  if G.is_directed then none else some (compGraph G)

/-- find_maximum_independent_set (independent_set.c lines 54-70): maximum
clique of the complement graph; rejects directed input. -/
def find_maximum_independent_set (G : Graph) : Option (List Nat) :=
  if G.is_directed then none
  else
    match create_complement_graph G with
    | none => none
    | some comp => find_maximum_clique comp

/-- find_minimum_vertex_cover (independent_set.c lines 75-97): all vertices
not in the maximum independent set (membership via the in_mis marking). -/
def find_minimum_vertex_cover (G : Graph) : Option (List Nat) :=
  if G.is_directed then none
  else
    match find_maximum_independent_set G with
    | none => none
    | some mis =>
      some ((List.range G.node_count).filter (fun v => !mis.contains v))

/-- vertex_cover_exact_via_mis (vertex_cover.c lines 89-120): complement,
maximum clique on it, then all vertices not in that set (linear
set_contains scan). -/
def vertex_cover_exact_via_mis (G : Graph) : Option (List Nat) :=
  if G.is_directed then none
  else
    match create_complement_graph G with
    | none => none
    | some comp =>
      match find_maximum_clique comp with
      | none => none
      | some max_clique =>
        some ((List.range G.node_count).filter (fun v => !max_clique.contains v))

/-- One outer iteration of vertex_cover_approx (vertex_cover.c lines
160-182): skip covered `u`, otherwise scan for the first uncovered
neighbour and take the edge into the matching, adding both endpoints. -/
def vcApproxStep (G : Graph) (st : (Nat → Bool) × List Nat) (u : Nat) :
    (Nat → Bool) × List Nat :=
  let matched := st.1
  let vc := st.2
  if matched u then st
  else
    match (List.range G.node_count).find? (fun v => G.adjacency u v && !matched v) with
    | none => st
    | some v =>
      let st1 :=
        if matched u then (matched, vc)
        else ((fun x => if x = u then true else matched x), vc ++ [u])
      if st1.1 v then st1
      else ((fun x => if x = v then true else st1.1 x), st1.2 ++ [v])

/-- vertex_cover_approx (vertex_cover.c lines 149-186): greedy maximal
matching, both endpoints of every accepted edge enter the cover. -/
def vertex_cover_approx (G : Graph) : Option (List Nat) :=
  if G.is_directed then none
  else some (((List.range G.node_count).foldl (vcApproxStep G) (fun _ => false, [])).2)

/-- Opposite colour in the BFS 2-colouring: `(color[u] == 1) ? 2 : 1`
(vertex_cover.c line 243). -/
def oppColor (c : Nat) : Nat := if c = 1 then 2 else 1

/-- Neighbour scan of one dequeued vertex in is_bipartite_partition
(vertex_cover.c lines 237-252): colour uncoloured neighbours with the
opposite colour and enqueue them; fail on a same-coloured neighbour. -/
def scanAdj (G : Graph) (u : Nat) :
    List Nat → (Nat → Nat) → List Nat → Option ((Nat → Nat) × List Nat)
  | [], color, adds => some (color, adds)
  | v :: vs, color, adds =>
    if G.adjacency u v then
      if color v = 0 then
        scanAdj G u vs (fun x => if x = v then oppColor (color u) else color x)
          (adds ++ [v])
      else if color v = color u then none
      else scanAdj G u vs color adds
    else scanAdj G u vs color adds

/-- BFS queue processing of is_bipartite_partition (vertex_cover.c lines
234-253), fuel-bounded; each vertex is coloured when enqueued and never
re-enqueued, so `node_count` fuel always drains the queue. -/
def bfsColor (G : Graph) : Nat → List Nat → (Nat → Nat) → Option (Nat → Nat)
  | _, [], color => some color
  | 0, _ :: _, _ => none
  | fuel + 1, u :: rest, color =>
    match scanAdj G u (List.range G.node_count) color [] with
    | none => none
    | some (color', adds) => bfsColor G fuel (rest ++ adds) color'

/-- Outer component loop of is_bipartite_partition (vertex_cover.c lines
226-254): start a BFS from every still-uncoloured vertex, colouring it 1. -/
def colorAll (G : Graph) : List Nat → (Nat → Nat) → Option (Nat → Nat)
  | [], color => some color
  | s :: ss, color =>
    if color s ≠ 0 then colorAll G ss color
    else
      match bfsColor G G.node_count [s] (fun x => if x = s then 1 else color x) with
      | none => none
      | some c => colorAll G ss c

/-- is_bipartite_partition (vertex_cover.c lines 216-273): BFS 2-colouring;
on success the left mask holds the vertices not coloured 2 (colour 1 plus
the dead fallback branch of lines 260-267). -/
def is_bipartite_partition (G : Graph) : Option (Nat → Bool) :=
  if G.is_directed then none
  else
    match colorAll G (List.range G.node_count) (fun _ => 0) with
    | none => none
    | some color => some (fun i => decide (color i ≠ 2))

/-- Adjacency lists of hopcroft_karp and vertex_cover_from_matching
(vertex_cover.c lines 372-394 and 577-598): for each left index `i`, the
right indices `j` with an edge between `left[i]` and `right[j]`. -/
def hkAdjL (G : Graph) (L R : List Nat) : Nat → List Nat :=
  fun i => (List.range R.length).filter (fun j => G.adjacency (L.getD i 0) (R.getD j 0))

/-- Neighbour scan of one dequeued left vertex in the Hopcroft–Karp BFS
(vertex_cover.c lines 428-445): a free right neighbour flags an augmenting
path; the partner of a matched right neighbour at infinite distance gets
layered and enqueued. -/
def hkBfsScan (pairV : Int → Int) (du : Nat) :
    List Nat → (Nat → Option Nat) → List Nat → Bool →
    ((Nat → Option Nat) × List Nat × Bool)
  | [], dist, adds, found => (dist, adds, found)
  | v :: vs, dist, adds, found =>
    let pu := pairV (v : Int)
    if pu = -1 then hkBfsScan pairV du vs dist adds true
    else if dist pu.toNat = none then
      hkBfsScan pairV du vs
        (fun x => if x = pu.toNat then some (du + 1) else dist x)
        (adds ++ [pu.toNat]) found
    else hkBfsScan pairV du vs dist adds found

/-- Hopcroft–Karp BFS queue loop (vertex_cover.c lines 426-446),
fuel-bounded; every left vertex is layered at most once, so `left_n + 1`
fuel drains the queue. -/
def hkBfsLoop (adjL : Nat → List Nat) (pairV : Int → Int) :
    Nat → List Nat → (Nat → Option Nat) → Bool → ((Nat → Option Nat) × Bool)
  | _, [], dist, found => (dist, found)
  | 0, _ :: _, dist, found => (dist, found)
  | fuel + 1, u :: rest, dist, found =>
    let du := (dist u).getD 0
    let (dist', adds, found') := hkBfsScan pairV du (adjL u) dist [] found
    hkBfsLoop adjL pairV fuel (rest ++ adds) dist' found'

/-- Matching flip along a found path (vertex_cover.c lines 490-504),
modelled exactly as written, including the slip: after pairing the top left
vertex, the next value of `cur_v` is read from `pairU[stack[idx-1]]` (the
PREVIOUS left vertex's current partner) instead of the partner that linked
the two stack levels, so any path with two or more left vertices corrupts
the matching and performs the write `pairV[-1]` (absorbed here by the
`Int → Int` map). -/
def hkFlip : List Nat → Int → (Nat → Int) → (Int → Int) → ((Nat → Int) × (Int → Int))
  | [], _, pairU, pairV => (pairU, pairV)
  | u :: rest, curv, pairU, pairV =>
    let pairU' := fun x => if x = u then curv else pairU x
    let pairV' := fun x => if x = curv then (u : Int) else pairV x
    let curv' :=
      match rest with
      | [] => curv
      | w :: _ => pairU' w
    hkFlip rest curv' pairU' pairV'

/-- Iterative DFS of one start vertex in Hopcroft–Karp (vertex_cover.c lines
470-516), fuel-bounded: advance the top vertex's edge cursor, augment when a
free right vertex is reached (clearing the stack), push the partner of a
correctly layered matched right vertex, pop when the cursor is exhausted. -/
def hkDfsRun (adjL : Nat → List Nat) (dist : Nat → Option Nat) :
    Nat → List Nat → (Nat → Nat) → (Nat → Int) → (Int → Int) → Nat →
    ((Nat → Nat) × (Nat → Int) × (Int → Int) × Nat)
  | 0, _, nxt, pairU, pairV, m => (nxt, pairU, pairV, m)
  | _ + 1, [], nxt, pairU, pairV, m => (nxt, pairU, pairV, m)
  | fuel + 1, u :: stk, nxt, pairU, pairV, m =>
    if hlt : nxt u < (adjL u).length then
      let v := (adjL u).get ⟨nxt u, hlt⟩
      let nxt' := fun x => if x = u then nxt u + 1 else nxt x
      let pu := pairV (v : Int)
      if pu = -1 then
        let (pairU', pairV') := hkFlip (u :: stk) (v : Int) pairU pairV
        hkDfsRun adjL dist fuel [] nxt' pairU' pairV' (m + 1)
      else if dist pu.toNat = some ((dist u).getD 0 + 1) ∧ pairU pu.toNat ≠ -1 then
        hkDfsRun adjL dist fuel (pu.toNat :: u :: stk) nxt' pairU pairV m
      else hkDfsRun adjL dist fuel (u :: stk) nxt' pairU pairV m
    else hkDfsRun adjL dist fuel stk nxt pairU pairV m

/-- Loop over all free left start vertices of one Hopcroft–Karp phase
(vertex_cover.c lines 463-517); the edge cursors `next` persist across
starts within the phase. -/
def hkDfsStarts (adjL : Nat → List Nat) (dist : Nat → Option Nat) (dfsFuel : Nat) :
    List Nat → (Nat → Nat) → (Nat → Int) → (Int → Int) → Nat →
    ((Nat → Int) × (Int → Int) × Nat)
  | [], _, pairU, pairV, m => (pairU, pairV, m)
  | s :: rest, nxt, pairU, pairV, m =>
    if pairU s ≠ -1 then hkDfsStarts adjL dist dfsFuel rest nxt pairU pairV m
    else
      let (nxt', pairU', pairV', m') := hkDfsRun adjL dist dfsFuel [s] nxt pairU pairV m
      hkDfsStarts adjL dist dfsFuel rest nxt' pairU' pairV' m'

/-- Outer phase loop of hopcroft_karp (vertex_cover.c lines 411-523),
fuel-bounded: BFS-layer from the free left vertices, stop when no free
right vertex is reachable, otherwise run the DFS phase and repeat. -/
def hkRounds (adjL : Nat → List Nat) (left_n : Nat) (dfsFuel : Nat) :
    Nat → (Nat → Int) → (Int → Int) → Nat → ((Nat → Int) × (Int → Int) × Nat)
  | 0, pairU, pairV, m => (pairU, pairV, m)
  | fuel + 1, pairU, pairV, m =>
    let dist0 : Nat → Option Nat := fun i => if pairU i = -1 then some 0 else none
    let q0 := (List.range left_n).filter (fun i => pairU i = -1)
    let (dist, found) := hkBfsLoop adjL pairV (left_n + 1) q0 dist0 false
    if !found then (pairU, pairV, m)
    else
      let (pairU', pairV', m') :=
        hkDfsStarts adjL dist dfsFuel (List.range left_n) (fun _ => 0) pairU pairV m
      hkRounds adjL left_n dfsFuel fuel pairU' pairV' m'

/-- hopcroft_karp (vertex_cover.c lines 360-536): returns the matching
arrays (indices into the left/right lists, -1 = unmatched; `none` models
the NULL arrays of an empty side) and the matching counter.  Fuel: the
phase loop runs at most `left_n + 1` times when it terminates within that
bound (each productive phase increments the counter), and the DFS budget
covers every cursor advance, push and pop of one phase. -/
def hopcroft_karp (G : Graph) (L R : List Nat) :
    Option ((Nat → Int) × (Int → Int)) × Nat :=
  if L.length = 0 ∨ R.length = 0 then (none, 0)
  else
    let adjL := hkAdjL G L R
    let totalAdj := ((List.range L.length).map (fun i => (adjL i).length)).sum
    let dfsFuel := 2 * totalAdj + 2 * L.length + 5
    let (pairU, pairV, m) :=
      hkRounds adjL L.length dfsFuel (L.length + 1) (fun _ => -1) (fun _ => -1) 0
    (some (pairU, pairV), m)

/-- One dequeue step of the alternating BFS in vertex_cover_from_matching
(vertex_cover.c lines 615-646): non-negative codes are left indices whose
non-matching edges reach unvisited right vertices; negative codes `-1-rj`
are right indices whose matched partner is visited. -/
def kcBfsStep (adjL : Nat → List Nat) (pairU : Nat → Int) (pairV : Int → Int)
    (visitedL visitedR : Nat → Bool) (code : Int) :
    ((Nat → Bool) × (Nat → Bool) × List Int) :=
  if 0 ≤ code then
    let li := code.toNat
    let st := (adjL li).foldl
      (fun (st : (Nat → Bool) × List Int) rj =>
        if !st.1 rj ∧ pairU li ≠ (rj : Int) then
          ((fun x => if x = rj then true else st.1 x), st.2 ++ [-1 - (rj : Int)])
        else st)
      (visitedR, [])
    (visitedL, st.1, st.2)
  else
    let rj := (-1 - code).toNat
    let pl := pairV (rj : Int)
    if pl ≠ -1 ∧ !visitedL pl.toNat then
      ((fun x => if x = pl.toNat then true else visitedL x), visitedR, [pl])
    else (visitedL, visitedR, [])

/-- Alternating BFS queue loop of vertex_cover_from_matching (vertex_cover.c
lines 615-646), fuel-bounded; every index is visited at most once. -/
def kcBfsLoop (adjL : Nat → List Nat) (pairU : Nat → Int) (pairV : Int → Int) :
    Nat → List Int → (Nat → Bool) → (Nat → Bool) → ((Nat → Bool) × (Nat → Bool))
  | _, [], visitedL, visitedR => (visitedL, visitedR)
  | 0, _ :: _, visitedL, visitedR => (visitedL, visitedR)
  | fuel + 1, code :: rest, visitedL, visitedR =>
    let (visitedL', visitedR', adds) := kcBfsStep adjL pairU pairV visitedL visitedR code
    kcBfsLoop adjL pairU pairV fuel (rest ++ adds) visitedL' visitedR'

/-- vertex_cover_from_matching (vertex_cover.c lines 569-673): alternating
BFS from the unmatched left vertices; the cover is the unreached left
vertices plus the reached right vertices, in list order. -/
def vertex_cover_from_matching (G : Graph) (L R : List Nat)
    (pairU : Nat → Int) (pairV : Int → Int) : List Nat :=
  let adjL := hkAdjL G L R
  let frees := (List.range L.length).filter (fun i => pairU i = -1)
  let visitedL0 : Nat → Bool := fun i => frees.contains i
  let (visitedL, visitedR) :=
    kcBfsLoop adjL pairU pairV (L.length + R.length + 1)
      (frees.map (fun i => (i : Int))) visitedL0 (fun _ => false)
  ((List.range L.length).filter (fun i => !visitedL i)).map (fun i => L.getD i 0)
    ++ ((List.range R.length).filter (fun j => visitedR j)).map (fun j => R.getD j 0)

/-- Degree of a vertex, as counted by the trivial-cover branch of
vertex_cover_bipartite_konig (vertex_cover.c lines 736-742). -/
def degreeCount (G : Graph) (i : Nat) : Nat :=
  ((List.range G.node_count).filter (fun j => G.adjacency i j)).length

/-- vertex_cover_bipartite_konig (vertex_cover.c lines 707-762): reject
directed input, 2-colour, split into side lists, run Hopcroft–Karp, return
the trivial all-non-isolated cover when a side is empty, otherwise the
König construction from the matching arrays. -/
def vertex_cover_bipartite_konig (G : Graph) : Option (List Nat) :=
  if G.is_directed then none
  else
    match is_bipartite_partition G with
    | none => none
    | some left_mask =>
      let L := (List.range G.node_count).filter (fun i => left_mask i)
      let R := (List.range G.node_count).filter (fun i => !left_mask i)
      let hk := hopcroft_karp G L R
      if L.length = 0 ∨ R.length = 0 then
        some ((List.range G.node_count).filter (fun i => 0 < degreeCount G i))
      else
        match hk.1 with
        | none => some []
        | some (pairU, pairV) =>
          some (vertex_cover_from_matching G L R pairU pairV)

/-- A vertex cover: every edge of the matrix has an endpoint in the list. -/
def IsVertexCover (G : Graph) (A : List Nat) : Prop :=
  ∀ a < G.node_count, ∀ b < G.node_count, G.adjacency a b = true → a ∈ A ∨ b ∈ A

instance (G : Graph) (A : List Nat) : Decidable (IsVertexCover G A) :=
  decidable_of_iff
    (∀ a ∈ List.range G.node_count, ∀ b ∈ List.range G.node_count,
      G.adjacency a b = true → a ∈ A ∨ b ∈ A)
    (by simp [IsVertexCover, List.mem_range])

/-- Symmetric adjacency from an undirected edge list. -/
def edges2adj (es : List (Nat × Nat)) : Nat → Nat → Bool :=
  fun i j => decide ((i, j) ∈ es ∨ (j, i) ∈ es)

/-- The path graph on vertices 0-1-2-3 of spec scenario 2. -/
def Gpath : Graph :=
  { node_count := 4, adjacency := edges2adj [(0, 1), (1, 2), (2, 3)],
    is_directed := false, allow_bidirectional := false }

/-- Bipartite graph with edges 0-1, 0-3, 2-1 (left side {0,2}): its maximum
matching needs the length-3 augmenting path 2-1-0-3, which exercises the
matching flip on a two-element stack. -/
def Gbug : Graph :=
  { node_count := 4, adjacency := edges2adj [(0, 1), (0, 3), (2, 1)],
    is_directed := false, allow_bidirectional := false }

/-- A single-vertex graph flagged as directed. -/
def GdirOne : Graph :=
  { node_count := 1, adjacency := fun _ _ => false,
    is_directed := true, allow_bidirectional := false }

/-- The triangle graph: the smallest non-bipartite undirected graph. -/
def Gtri : Graph :=
  { node_count := 3, adjacency := edges2adj [(0, 1), (1, 2), (2, 0)],
    is_directed := false, allow_bidirectional := false }

/-- Invariant carried through the Bron–Kerbosch recursion: nodup lists,
mutual disjointness, `C` a clique, everything in `P ∪ S` adjacent to all of
`C`. -/
def BKInv (G : Graph) (C P S : List Nat) : Prop :=
  C.Nodup ∧ P.Nodup ∧ S.Nodup ∧
  (∀ x ∈ P, x ∉ C) ∧ (∀ x ∈ S, x ∉ C) ∧ (∀ x ∈ P, x ∉ S) ∧
  IsCliqueL G C ∧
  (∀ x, x ∈ P ∨ x ∈ S → ∀ c ∈ C, G.adjacency x c = true)

/-- What a record of `bkAux` running at state `(C, P, S)` looks like: a
duplicate-free clique extending `C` inside `C ∪ P` that no vertex of
`P ∪ S` outside it is fully adjacent to. -/
def RecordOK (G : Graph) (C P S R : List Nat) : Prop :=
  R.Nodup ∧ (∀ c ∈ C, c ∈ R) ∧ (∀ x ∈ R, x ∈ C ∨ x ∈ P) ∧ IsCliqueL G R ∧
  (∀ x, x ∈ P ∨ x ∈ S → x ∉ R → ∃ r ∈ R, G.adjacency x r = false)

/-- The vertex sets that `bkAux` at state `(C, P, S)` must record: cliques
through `C` inside `C ∪ P`, not fully adjacent to any outside vertex of
`P ∪ S`. -/
def TargetSet (G : Graph) (C P S : List Nat) (M : Finset Nat) : Prop :=
  (∀ c ∈ C, c ∈ M) ∧ (∀ x ∈ M, x ∈ C ∨ x ∈ P) ∧
  (∀ a ∈ M, ∀ b ∈ M, a ≠ b → G.adjacency a b = true) ∧
  (∀ x, x ∈ P ∨ x ∈ S → x ∉ M → ∃ m ∈ M, G.adjacency x m = false)

/-- A maximal clique of `G` given as a list: a clique inside the vertex
range that no outside vertex extends. -/
def IsMaxClique (G : Graph) (R : List Nat) : Prop :=
  IsCliqueL G R ∧ (∀ x ∈ R, x < G.node_count) ∧
  ∀ x < G.node_count, x ∉ R → ∃ r ∈ R, G.adjacency x r = false

/-- A maximal clique of `G` given as a finite set. -/
def IsMaxCliqueF (G : Graph) (M : Finset Nat) : Prop :=
  (∀ a ∈ M, ∀ b ∈ M, a ≠ b → G.adjacency a b = true) ∧
  (∀ x ∈ M, x < G.node_count) ∧
  ∀ x < G.node_count, x ∉ M → ∃ m ∈ M, G.adjacency x m = false

/-- A proper 2-colouring: every edge inside the vertex range joins the two
colour classes. -/
def IsProperColoring (G : Graph) (c : Nat → Bool) : Prop :=
  ∀ i < G.node_count, ∀ j < G.node_count, G.adjacency i j = true → c i ≠ c j

/-! ### Basic lemmas about the set primitives -/

/-- swapRemove is a permutation of erasing the first occurrence. -/
theorem swapRemove_perm (P : List Nat) (v : Nat) :
    (swapRemove P v).Perm (P.erase v) := by
  induction P with
  | nil => simp [swapRemove]
  | cons p ps ih =>
    by_cases h : p = v
    · subst h
      simp only [swapRemove, if_pos rfl, List.erase_cons_head]
      cases hlast : ps.getLast? with
      | none =>
        have : ps = [] := List.getLast?_eq_none_iff.mp hlast
        simp [this]
      | some z =>
        have hne : ps ≠ [] := by
          intro h0; rw [h0] at hlast; simp at hlast
        have hz : ps.getLast hne = z := by
          have := List.getLast?_eq_getLast ps hne
          rw [hlast] at this; exact (Option.some.injEq _ _).mp this.symm
        have hsplit : ps.dropLast ++ [z] = ps := by
          rw [← hz]; exact List.dropLast_append_getLast hne
        have : (z :: ps.dropLast).Perm (ps.dropLast ++ [z]) :=
          (List.perm_append_singleton z ps.dropLast).symm
        rw [hsplit] at this; exact this
    · have hpv : (p == v) = false := by simp [h]
      simp only [swapRemove, if_neg h, List.erase_cons, hpv, if_false, Bool.false_eq_true]
      exact List.Perm.cons p ih

theorem swapRemove_nodup {P : List Nat} (v : Nat) (h : P.Nodup) :
    (swapRemove P v).Nodup :=
  (swapRemove_perm P v).nodup_iff.mpr (h.erase v)

theorem mem_swapRemove {P : List Nat} (hnd : P.Nodup) {x v : Nat} :
    x ∈ swapRemove P v ↔ x ∈ P ∧ x ≠ v := by
  rw [(swapRemove_perm P v).mem_iff, hnd.mem_erase_iff, and_comm]

theorem swapRemove_length {P : List Nat} {v : Nat} (h : v ∈ P) :
    (swapRemove P v).length + 1 = P.length := by
  rw [(swapRemove_perm P v).length_eq, List.length_erase_of_mem h]
  exact Nat.succ_pred_eq_of_pos (List.length_pos_of_mem h)

theorem swapRemove_length_le (P : List Nat) (v : Nat) :
    (swapRemove P v).length ≤ P.length := by
  rw [(swapRemove_perm P v).length_eq]
  exact List.length_erase_le v P

/-! ### Complement transform -/

/-- C6: for undirected `G` with symmetric irreflexive adjacency, one
application of create_complement_graph keeps the vertex count, makes the
graph undirected, drops all self-loops and flips every off-diagonal entry;
a second application reproduces `G`'s adjacency matrix exactly. -/
theorem claim_C6_complement_involution (G : Graph)
    (hundir : G.is_directed = false) (hirr : ∀ i, G.adjacency i i = false) :
    ∃ G1 G2, create_complement_graph G = some G1 ∧
      create_complement_graph G1 = some G2 ∧
      G1.node_count = G.node_count ∧ G1.is_directed = false ∧
      (∀ i, G1.adjacency i i = false) ∧
      (∀ i j, i ≠ j → G1.adjacency i j = !G.adjacency i j) ∧
      G2.node_count = G.node_count ∧
      (∀ i j, G2.adjacency i j = G.adjacency i j) := by
  have h1 : create_complement_graph G = some (compGraph G) := by
    unfold create_complement_graph; rw [hundir]; rfl
  refine ⟨_, _, h1, rfl, rfl, rfl, ?_, ?_, rfl, ?_⟩
  · intro i; simp [compGraph, complementAdj]
  · intro i j hij; simp [compGraph, complementAdj, hij]
  · intro i j
    by_cases hij : i = j
    · subst hij; simp [compGraph, complementAdj, hirr i]
    · simp [compGraph, complementAdj, hij]

/-- C6 witness: the complement of the path graph, complemented again,
restores the path graph's adjacency. -/
theorem claim_C6_witness :
    ∃ G1 G2, create_complement_graph Gpath = some G1 ∧
      create_complement_graph G1 = some G2 ∧
      G1.node_count = Gpath.node_count ∧ G1.is_directed = false ∧
      (∀ i, G1.adjacency i i = false) ∧
      (∀ i j, i ≠ j → G1.adjacency i j = !Gpath.adjacency i j) ∧
      G2.node_count = Gpath.node_count ∧
      (∀ i j, G2.adjacency i j = Gpath.adjacency i j) :=
  claim_C6_complement_involution Gpath rfl
    (by intro i; simp [Gpath, edges2adj]; omega)

/-! ### Concrete scenario claims -/

/-- C2 counterexample: on the path graph 0-1-2-3 the greedy approximate
cover picks both endpoints of the matching edges (0,1) and (2,3), returning
four vertices, not the two the claim states. -/
theorem claim_C2_counterexample :
    (vertex_cover_approx Gpath).map List.length ≠ some 2 := by decide

/-- C2 amended: on the path graph 0-1-2-3, find_maximum_clique returns a
clique of size 2, find_maximum_independent_set a set of size 2,
vertex_cover_exact_via_mis a vertex cover of size 2, while
vertex_cover_approx returns a vertex cover of size 4. -/
theorem claim_C2_path_graph_scenario :
    (find_maximum_clique Gpath = some [1, 0] ∧ IsCliqueL Gpath [1, 0] ∧
      ([1, 0] : List Nat).length = 2) ∧
    (find_maximum_independent_set Gpath = some [0, 2] ∧
      ([0, 2] : List Nat).length = 2) ∧
    (vertex_cover_exact_via_mis Gpath = some [1, 3] ∧ IsVertexCover Gpath [1, 3] ∧
      ([1, 3] : List Nat).length = 2) ∧
    (vertex_cover_approx Gpath = some [0, 1, 2, 3] ∧
      IsVertexCover Gpath [0, 1, 2, 3] ∧
      ([0, 1, 2, 3] : List Nat).length = 4) := by decide

/-- C1: evaluation exhibiting the Hopcroft–Karp path-flip defect.  On the
bipartite graph with edges 0-1, 0-3, 2-1 the maximum matching has size 2
(the disjoint edges (0,3) and (2,1) exist) and the exact cover has size 2,
yet vertex_cover_bipartite_konig returns the single vertex {1}, which does
not even cover the edge (0,3); the internal matching counter still reports
2, so the returned cover size does not equal the matching size either. -/
theorem claim_C1_konig_bug_eval :
    vertex_cover_bipartite_konig Gbug = some [1] ∧
    vertex_cover_exact_via_mis Gbug = some [0, 2] ∧
    (hopcroft_karp Gbug [0, 2] [1, 3]).2 = 2 ∧
    ¬ IsVertexCover Gbug [1] ∧
    Gbug.adjacency 0 3 = true ∧ Gbug.adjacency 2 1 = true ∧
    (vertex_cover_bipartite_konig Gbug).map List.length ≠
      (vertex_cover_exact_via_mis Gbug).map List.length := by decide

/-- Strict filter-length bound: filtering away a present element shortens
the list. -/
theorem length_filter_lt {P : List Nat} {q : Nat → Bool} {v : Nat}
    (hv : v ∈ P) (hq : q v = false) :
    (P.filter q).length < P.length := by
  induction P with
  | nil => cases hv
  | cons p ps ih =>
    rcases List.mem_cons.mp hv with h | h
    · subst h
      rw [List.filter_cons_of_neg (by simp [hq])]
      exact Nat.lt_succ_of_le (List.length_filter_le q ps)
    · by_cases hp : q p = true
      · rw [List.filter_cons_of_pos hp]
        simpa using ih h
      · rw [List.filter_cons_of_neg (by simpa using hp)]
        exact Nat.lt_succ_of_le (Nat.le_of_lt (ih h))

/-! ### Structural facts about the recorded cliques (no symmetry needed) -/

/-- Loop part of `bkAux_records_nodup`: with an irreflexive matrix, every
record of the candidate loop is duplicate-free and contained in `C ∪ P`. -/
theorem bkLoop_records_nodup (G : Graph) (hirr : ∀ i, G.adjacency i i = false)
    (rec : List Nat → List Nat → List Nat → List (List Nat))
    (hrec : ∀ C P S, C.Nodup → P.Nodup → (∀ x ∈ P, x ∉ C) →
      ∀ R ∈ rec C P S, R.Nodup ∧ ∀ x ∈ R, x ∈ C ∨ x ∈ P) :
    ∀ cands C P S, C.Nodup → P.Nodup → cands.Nodup → (∀ v ∈ cands, v ∈ P) →
      (∀ x ∈ P, x ∉ C) →
      ∀ R ∈ bkLoop G rec C cands P S, R.Nodup ∧ ∀ x ∈ R, x ∈ C ∨ x ∈ P := by
  intro cands
  induction cands with
  | nil => intro C P S _ _ _ _ _ R hR; cases hR
  | cons v rest ih =>
    intro C P S hC hP hcands hsub hPC R hR
    have hvP : v ∈ P := hsub v (List.mem_cons_self v rest)
    have hvC : v ∉ C := hPC v hvP
    rcases List.mem_append.mp hR with hR | hR
    · -- record of the recursive call on C ++ [v]
      have hC' : (C ++ [v]).Nodup := by
        simp [List.nodup_append, hC, hvC]
      have hP' : (P.filter (fun w => G.adjacency v w)).Nodup := hP.filter _
      have hPC' : ∀ x ∈ P.filter (fun w => G.adjacency v w), x ∉ C ++ [v] := by
        intro x hx
        have hxP := List.mem_filter.mp hx
        have hxv : x ≠ v := by
          intro h; subst h
          rw [hirr x] at hxP; simp at hxP
        simp [List.mem_append, hPC x hxP.1, hxv]
      obtain ⟨hnd, hmem⟩ := hrec _ _ _ hC' hP' hPC' R hR
      refine ⟨hnd, fun x hx => ?_⟩
      rcases hmem x hx with h | h
      · rcases List.mem_append.mp h with h | h
        · exact Or.inl h
        · simp at h; subst h; exact Or.inr hvP
      · exact Or.inr (List.mem_filter.mp h).1
    · -- record of the remaining loop on swapRemove P v
      have hvrest : v ∉ rest := (List.nodup_cons.mp hcands).1
      have hsub' : ∀ w ∈ rest, w ∈ swapRemove P v := by
        intro w hw
        have hwv : w ≠ v := by intro h; subst h; exact hvrest hw
        exact (mem_swapRemove hP).mpr ⟨hsub w (List.mem_cons_of_mem _ hw), hwv⟩
      have hPC' : ∀ x ∈ swapRemove P v, x ∉ C := by
        intro x hx; exact hPC x ((mem_swapRemove hP).mp hx).1
      obtain ⟨hnd, hmem⟩ := ih C (swapRemove P v) (S ++ [v]) hC
        (swapRemove_nodup v hP) (List.nodup_cons.mp hcands).2 hsub' hPC' R hR
      refine ⟨hnd, fun x hx => ?_⟩
      rcases hmem x hx with h | h
      · exact Or.inl h
      · exact Or.inr ((mem_swapRemove hP).mp h).1

/-- With an irreflexive matrix, every record of the Bron–Kerbosch enumerator
is duplicate-free and contained in `C ∪ P`. -/
theorem bkAux_records_nodup (G : Graph) (hirr : ∀ i, G.adjacency i i = false) :
    ∀ f C P S, C.Nodup → P.Nodup → (∀ x ∈ P, x ∉ C) →
      ∀ R ∈ bkAux G f C P S, R.Nodup ∧ ∀ x ∈ R, x ∈ C ∨ x ∈ P := by
  intro f
  induction f with
  | zero => intro C P S _ _ _ R hR; cases hR
  | succ f ih =>
    intro C P S hC hP hPC R hR
    simp only [bkAux] at hR
    by_cases hbase : P.length = 0 ∧ S.length = 0
    · rw [if_pos hbase] at hR
      simp at hR; subst hR
      exact ⟨hC, fun x hx => Or.inl hx⟩
    · rw [if_neg hbase] at hR
      exact bkLoop_records_nodup G hirr (bkAux G f) ih _ C P S hC hP
        (hP.filter _) (fun v hv => (List.mem_filter.mp hv).1) hPC R hR

/-! ### The selection scan of find_maximum_clique -/

/-- The selection fold returns either the seed or a member of the list. -/
theorem selectBest_mem : ∀ (L : List (List Nat)) (acc : Option (List Nat))
    (c : List Nat),
    L.foldl (fun best x => if x.length > bestSize best then some x else best) acc
      = some c →
    c ∈ L ∨ acc = some c := by
  intro L
  induction L with
  | nil => intro acc c h; exact Or.inr h
  | cons hd tl ih =>
    intro acc c h
    rw [List.foldl_cons] at h
    rcases ih _ c h with h1 | h1
    · exact Or.inl (List.mem_cons_of_mem _ h1)
    · by_cases hlt : hd.length > bestSize acc
      · rw [if_pos hlt] at h1
        exact Or.inl (by simp at h1; simp [h1])
      · rw [if_neg hlt] at h1
        exact Or.inr h1

/-- find_maximum_clique returns one of the recorded maximal cliques. -/
theorem find_maximum_clique_mem {G : Graph} {c : List Nat}
    (h : find_maximum_clique G = some c) :
    c ∈ find_maximal_cliques G [] (List.range G.node_count) [] := by
  unfold find_maximum_clique at h
  rcases selectBest_mem _ _ _ h with h1 | h1
  · exact h1
  · cases h1

/-- The complement adjacency matrix is always irreflexive. -/
theorem complementAdj_irrefl (G : Graph) : ∀ i, (compGraph G).adjacency i i = false := by
  intro i; simp [compGraph, complementAdj]

/-! ### Cover/independent-set duality (C7) -/

/-- C7: whenever find_maximum_independent_set returns a set, the size of the
set returned by find_minimum_vertex_cover equals the vertex count minus the
independent set's size. -/
theorem claim_C7_cover_duality (G : Graph) (mis : List Nat)
    (h : find_maximum_independent_set G = some mis) :
    ∃ vc, find_minimum_vertex_cover G = some vc ∧
      vc.length = G.node_count - mis.length := by
  have hdir : G.is_directed = false := by
    by_contra hd
    rw [Bool.not_eq_false] at hd
    simp [find_maximum_independent_set, hd] at h
  have hcover : find_minimum_vertex_cover G =
      some ((List.range G.node_count).filter (fun v => !mis.contains v)) := by
    simp [find_minimum_vertex_cover, hdir, h]
  have hcomp : find_maximum_clique (compGraph G) = some mis := by
    simpa [find_maximum_independent_set, hdir, create_complement_graph] using h
  have hmem := find_maximum_clique_mem hcomp
  unfold find_maximal_cliques at hmem
  obtain ⟨hnodup, hmem2⟩ := bkAux_records_nodup (compGraph G) (complementAdj_irrefl G)
    ((List.range (compGraph G).node_count).length + 1) []
    (List.range (compGraph G).node_count) [] List.nodup_nil (List.nodup_range _)
    (by intro x _ hx; cases hx) mis hmem
  have hbound : ∀ x ∈ mis, x < G.node_count := by
    intro x hx
    rcases hmem2 x hx with h0 | h0
    · cases h0
    · exact List.mem_range.mp h0
  refine ⟨_, hcover, ?_⟩
  have hperm : ((List.range G.node_count).filter (fun v => mis.contains v)).Perm mis := by
    apply (List.perm_ext_iff_of_nodup ((List.nodup_range _).filter _) hnodup).mpr
    intro a
    simp only [List.mem_filter, List.mem_range, List.contains_eq_any_beq,
      List.any_eq_true, beq_iff_eq]
    constructor
    · rintro ⟨_, b, hb, rfl⟩; exact hb
    · intro ha; exact ⟨hbound a ha, a, ha, rfl⟩
  have hsplit := (List.filter_append_perm (fun v => mis.contains v)
    (List.range G.node_count)).length_eq
  rw [List.length_append, List.length_range] at hsplit
  rw [hperm.length_eq] at hsplit
  omega

/-- C7 witness: on the path graph the independent set has size 2 and the
cover has size 4 - 2 = 2. -/
theorem claim_C7_witness :
    ∃ vc, find_minimum_vertex_cover Gpath = some vc ∧
      vc.length = Gpath.node_count - ([0, 2] : List Nat).length :=
  claim_C7_cover_duality Gpath [0, 2] (by decide)

/-! ### Pivot selection facts -/

/-- The argmax fold either keeps its seed or returns a member of the list. -/
theorem best_foldl_mem (c : Nat → Int) :
    ∀ (l : List Nat) (st : Option Nat × Int),
      (l.foldl (fun st x => if st.2 < c x then (some x, c x) else st) st).1 = st.1 ∨
      ∃ u ∈ l,
        (l.foldl (fun st x => if st.2 < c x then (some x, c x) else st) st).1 = some u := by
  intro l
  induction l with
  | nil => intro st; exact Or.inl rfl
  | cons x xs ih =>
    intro st
    rw [List.foldl_cons]
    rcases ih (if st.2 < c x then (some x, c x) else st) with h | h
    · rw [h]
      by_cases hc : st.2 < c x
      · right
        exact ⟨x, List.mem_cons_self x xs, by rw [if_pos hc]⟩
      · left; rw [if_neg hc]
    · right
      obtain ⟨u, hu, he⟩ := h
      exact ⟨u, List.mem_cons_of_mem x hu, he⟩

/-- When `P ++ S` is non-empty the pivot scan selects some vertex of it (the
first candidate already beats the initial count -1). -/
theorem pivot_some (G : Graph) (P S : List Nat) (h : P ++ S ≠ []) :
    ∃ u, pivot G P S = some u ∧ u ∈ P ++ S := by
  cases hPS : P ++ S with
  | nil => exact absurd hPS h
  | cons x l =>
    unfold pivot
    rw [hPS, List.foldl_cons]
    have hpos : (-1 : Int) <
        ((P.filter (fun w => G.adjacency x w)).length : Int) := by
      have := Int.ofNat_nonneg (P.filter (fun w => G.adjacency x w)).length
      omega
    rw [if_pos hpos]
    rcases best_foldl_mem
        (fun x => ((P.filter (fun w => G.adjacency x w)).length : Int)) l
        (some x, ((P.filter (fun w => G.adjacency x w)).length : Int)) with h1 | h1
    · exact ⟨x, h1, List.mem_cons_self x l⟩
    · obtain ⟨u, hu, he⟩ := h1
      exact ⟨u, he, List.mem_cons_of_mem x hu⟩

/-! ### The enumerator output is non-empty -/

/-- Along the leftmost branch the excluded set stays empty, so the
enumerator always reaches a base case: its output is non-empty, and when
candidates remain the witness record properly extends `C`. -/
theorem bkAux_exists_record (G : Graph) (hirr : ∀ i, G.adjacency i i = false) :
    ∀ f C P, P.length < f →
      ∃ R ∈ bkAux G f C P [], C.length ≤ R.length ∧
        (P ≠ [] → C.length + 1 ≤ R.length) := by
  intro f
  induction f with
  | zero => intro C P h; omega
  | succ f ih =>
    intro C P hlen
    simp only [bkAux]
    by_cases hbase : P.length = 0 ∧ ([] : List Nat).length = 0
    · rw [if_pos hbase]
      refine ⟨C, List.mem_singleton_self C, Nat.le_refl _, ?_⟩
      intro hP
      exact absurd (List.length_eq_zero.mp hbase.1) hP
    · rw [if_neg hbase]
      have hPne : P ≠ [] := by
        intro h0; subst h0; exact hbase ⟨rfl, rfl⟩
      obtain ⟨u, hu, humem⟩ := pivot_some G P [] (by simpa using hPne)
      have huP : u ∈ P := by simpa using humem
      have hu_cands : u ∈ P.filter (fun v =>
          match pivot G P [] with
          | none => true
          | some x => !G.adjacency x v) := by
        refine List.mem_filter.mpr ⟨huP, ?_⟩
        rw [hu]
        simp [hirr u]
      cases hc : P.filter (fun v =>
          match pivot G P [] with
          | none => true
          | some x => !G.adjacency x v) with
      | nil => rw [hc] at hu_cands; cases hu_cands
      | cons v rest =>
        simp only [bkLoop]
        have hvP : v ∈ P := by
          have : v ∈ P.filter (fun v =>
              match pivot G P [] with
              | none => true
              | some x => !G.adjacency x v) := by
            rw [hc]; exact List.mem_cons_self v rest
          exact (List.mem_filter.mp this).1
        have hlen' : (P.filter (fun w => G.adjacency v w)).length < f := by
          have h1 := @length_filter_lt P (fun w => G.adjacency v w) v hvP (hirr v)
          omega
        obtain ⟨R, hR, hRlen, _⟩ := ih (C ++ [v]) (P.filter (fun w => G.adjacency v w)) hlen'
        refine ⟨R, ?_, ?_, ?_⟩
        · apply List.mem_append.mpr
          left
          simpa using hR
        · rw [List.length_append, List.length_singleton] at hRlen; omega
        · intro _
          rw [List.length_append, List.length_singleton] at hRlen; omega

/-! ### More facts about the selection scan -/

/-- Once the selection fold holds a clique it keeps holding one. -/
theorem selectBest_keep_some :
    ∀ (L : List (List Nat)) (c : List Nat),
      ∃ d, L.foldl (fun best x => if x.length > bestSize best then some x else best)
        (some c) = some d := by
  intro L
  induction L with
  | nil => intro c; exact ⟨c, rfl⟩
  | cons hd tl ih =>
    intro c
    rw [List.foldl_cons]
    by_cases h : hd.length > bestSize (some c)
    · rw [if_pos h]; exact ih hd
    · rw [if_neg h]; exact ih c

/-- If some list member strictly beats the seed size, the selection fold
returns a value. -/
theorem selectBest_isSome :
    ∀ (L : List (List Nat)) (acc : Option (List Nat)),
      (∃ R ∈ L, bestSize acc < R.length) →
      ∃ c, L.foldl (fun best x => if x.length > bestSize best then some x else best)
        acc = some c := by
  intro L
  induction L with
  | nil => rintro acc ⟨R, hR, _⟩; cases hR
  | cons hd tl ih =>
    rintro acc ⟨R, hR, hRlen⟩
    rw [List.foldl_cons]
    by_cases h : hd.length > bestSize acc
    · rw [if_pos h]; exact selectBest_keep_some tl hd
    · rw [if_neg h]
      rcases List.mem_cons.mp hR with rfl | hRtl
      · exact absurd hRlen h
      · exact ih acc ⟨R, hRtl, hRlen⟩

/-- The selection fold result dominates every list member and the seed. -/
theorem selectBest_ge :
    ∀ (L : List (List Nat)) (acc : Option (List Nat)) (c : List Nat),
      L.foldl (fun best x => if x.length > bestSize best then some x else best) acc
        = some c →
      (∀ R ∈ L, R.length ≤ c.length) ∧ bestSize acc ≤ c.length := by
  intro L
  induction L with
  | nil =>
    intro acc c h
    refine ⟨fun R hR => absurd hR (List.not_mem_nil R), ?_⟩
    rw [List.foldl_nil] at h; rw [h]; simp [bestSize]
  | cons hd tl ih =>
    intro acc c h
    rw [List.foldl_cons] at h
    obtain ⟨htl, hseed⟩ := ih _ c h
    have hhd : hd.length ≤ bestSize (if hd.length > bestSize acc then some hd else acc) := by
      by_cases hc : hd.length > bestSize acc
      · rw [if_pos hc]; simp [bestSize]
      · rw [if_neg hc]; exact Nat.le_of_not_lt hc
    have hmono : bestSize acc ≤
        bestSize (if hd.length > bestSize acc then some hd else acc) := by
      by_cases hc : hd.length > bestSize acc
      · rw [if_pos hc]; exact Nat.le_of_lt hc
      · rw [if_neg hc]
    refine ⟨fun R hR => ?_, by omega⟩
    rcases List.mem_cons.mp hR with rfl | hRtl
    · omega
    · exact htl R hRtl

/-! ### Directed input handling of the clique entry point (C10) -/

/-- The pivot scan reads only the adjacency matrix. -/
theorem pivot_congr (G G' : Graph) (h : G.adjacency = G'.adjacency) (P S : List Nat) :
    pivot G P S = pivot G' P S := by
  unfold pivot; rw [h]

/-- The candidate loop reads only the adjacency matrix. -/
theorem bkLoop_congr (G G' : Graph) (h : G.adjacency = G'.adjacency)
    (rec : List Nat → List Nat → List Nat → List (List Nat)) (C : List Nat) :
    ∀ cands P S, bkLoop G rec C cands P S = bkLoop G' rec C cands P S := by
  intro cands
  induction cands with
  | nil => intro P S; rfl
  | cons v rest ih =>
    intro P S
    simp only [bkLoop, h, ih]

/-- The Bron–Kerbosch enumerator reads only the adjacency matrix. -/
theorem bkAux_congr (G G' : Graph) (h : G.adjacency = G'.adjacency) :
    ∀ f C P S, bkAux G f C P S = bkAux G' f C P S := by
  intro f
  induction f with
  | zero => intro C P S; rfl
  | succ f ih =>
    intro C P S
    have hrec : bkAux G f = bkAux G' f :=
      funext fun C => funext fun P => funext fun S => ih C P S
    simp only [bkAux, pivot_congr G G' h, h, hrec,
      bkLoop_congr G G' h (bkAux G' f) C]

/-- C10: find_maximum_clique never validates directedness: its result
depends only on the vertex count and the matrix (same output for any flag
values), and on any graph with at least one vertex and an irreflexive
matrix — directed flag included — it returns a vertex set; by contrast the
complement, independent-set and vertex-cover entry points return the absent
result on directed input. -/
theorem claim_C10_no_directed_validation (G : Graph)
    (hirr : ∀ i, G.adjacency i i = false) (hn : 1 ≤ G.node_count) :
    (∃ c, find_maximum_clique G = some c) ∧
    (∀ n adj d1 d2 ab1 ab2,
      find_maximum_clique ⟨n, adj, d1, ab1⟩ = find_maximum_clique ⟨n, adj, d2, ab2⟩) ∧
    (G.is_directed = true →
      create_complement_graph G = none ∧
      find_maximum_independent_set G = none ∧
      vertex_cover_exact_via_mis G = none ∧
      find_minimum_vertex_cover G = none) := by
  refine ⟨?_, fun n adj d1 d2 ab1 ab2 => ?_, fun hd => ?_⟩
  case refine_2 =>
    unfold find_maximum_clique find_maximal_cliques
    exact congrArg _
      (bkAux_congr ⟨n, adj, d1, ab1⟩ ⟨n, adj, d2, ab2⟩ rfl _ _ _ _)
  · obtain ⟨R, hR, _, hpos⟩ := bkAux_exists_record G hirr
      ((List.range G.node_count).length + 1) [] (List.range G.node_count)
      (Nat.lt_succ_self _)
    have hPne : List.range G.node_count ≠ [] := by
      intro h0
      rw [List.range_eq_nil] at h0
      omega
    have h1 : 1 ≤ R.length := by simpa using hpos hPne
    obtain ⟨c, hc⟩ := selectBest_isSome
      (find_maximal_cliques G [] (List.range G.node_count) []) none
      ⟨R, hR, by simpa [bestSize] using h1⟩
    exact ⟨c, hc⟩
  · exact ⟨by simp [create_complement_graph, hd],
      by simp [find_maximum_independent_set, hd],
      by simp [vertex_cover_exact_via_mis, hd],
      by simp [find_minimum_vertex_cover, hd]⟩

/-- C10 witness: the one-vertex directed graph gets a maximum clique while
the other entry points reject it. -/
theorem claim_C10_witness :
    (∃ c, find_maximum_clique GdirOne = some c) ∧
    (∀ n adj d1 d2 ab1 ab2,
      find_maximum_clique ⟨n, adj, d1, ab1⟩ = find_maximum_clique ⟨n, adj, d2, ab2⟩) ∧
    (GdirOne.is_directed = true →
      create_complement_graph GdirOne = none ∧
      find_maximum_independent_set GdirOne = none ∧
      vertex_cover_exact_via_mis GdirOne = none ∧
      find_minimum_vertex_cover GdirOne = none) :=
  claim_C10_no_directed_validation GdirOne (fun _ => rfl) (Nat.le_refl 1)

/-! ### Full Bron–Kerbosch specification (C3, C4, C5) -/

/-- Loop part of the Bron–Kerbosch specification.  Given the specification
of the enumerator one fuel level down, every record of the candidate loop
is a relatively maximal clique meeting the candidate list, every relatively
maximal clique meeting the candidate list is recorded, and no two records
are equal as sets. -/
theorem bkLoop_spec (G : Graph)
    (hsym : ∀ i j, G.adjacency i j = G.adjacency j i)
    (hirr : ∀ i, G.adjacency i i = false) (f : Nat)
    (IH : ∀ C P S, BKInv G C P S → P.length < f →
      (∀ R ∈ bkAux G f C P S, RecordOK G C P S R) ∧
      (∀ M : Finset Nat, TargetSet G C P S M →
        ∃ R ∈ bkAux G f C P S, R.toFinset = M) ∧
      (bkAux G f C P S).Pairwise (fun R1 R2 => R1.toFinset ≠ R2.toFinset)) :
    ∀ cands C P S, BKInv G C P S → P.length ≤ f → cands.Nodup →
      (∀ v ∈ cands, v ∈ P) →
      (∀ R ∈ bkLoop G (bkAux G f) C cands P S,
        RecordOK G C P S R ∧ ∃ v ∈ cands, v ∈ R) ∧
      (∀ M : Finset Nat, TargetSet G C P S M → (∃ v ∈ cands, v ∈ M) →
        ∃ R ∈ bkLoop G (bkAux G f) C cands P S, R.toFinset = M) ∧
      (bkLoop G (bkAux G f) C cands P S).Pairwise
        (fun R1 R2 => R1.toFinset ≠ R2.toFinset) := by
  intro cands
  induction cands with
  | nil =>
    intro C P S _ _ _ _
    refine ⟨?_, ?_, List.Pairwise.nil⟩
    · intro R hR; cases hR
    · rintro M _ ⟨v, hv, _⟩; cases hv
  | cons v rest ih =>
    intro C P S hinv hlen hnd hsubc
    obtain ⟨hCnd, hPnd, hSnd, hPC, hSC, hPS, hCcl, hcompat⟩ := hinv
    have hvP : v ∈ P := hsubc v (List.mem_cons_self v rest)
    have hvC : v ∉ C := hPC v hvP
    have hvS : v ∉ S := hPS v hvP
    have hvrest : v ∉ rest := (List.nodup_cons.mp hnd).1
    -- invariant for the recursive call on C ++ [v]
    have hinv' : BKInv G (C ++ [v]) (P.filter (fun w => G.adjacency v w))
        (S.filter (fun w => G.adjacency v w)) := by
      refine ⟨?_, hPnd.filter _, hSnd.filter _, ?_, ?_, ?_, ?_, ?_⟩
      · simp [List.nodup_append, hCnd, hvC]
      · intro x hx
        obtain ⟨hxP, hxadj⟩ := List.mem_filter.mp hx
        have hxv : x ≠ v := by
          intro h; subst h; rw [hirr x] at hxadj; cases hxadj
        simp [List.mem_append, hPC x hxP, hxv]
      · intro x hx
        obtain ⟨hxS, _⟩ := List.mem_filter.mp hx
        have hxv : x ≠ v := by
          intro h; subst h; exact hvS hxS
        simp [List.mem_append, hSC x hxS, hxv]
      · intro x hx
        obtain ⟨hxP, _⟩ := List.mem_filter.mp hx
        intro hx'
        exact hPS x hxP (List.mem_filter.mp hx').1
      · intro a ha b hb hab
        rcases List.mem_append.mp ha with haC | haV
        · rcases List.mem_append.mp hb with hbC | hbV
          · exact hCcl a haC b hbC hab
          · have hbv : b = v := by simpa using hbV
            subst hbv
            rw [hsym a b]
            exact hcompat b (Or.inl hvP) a haC
        · have hav : a = v := by simpa using haV
          subst hav
          rcases List.mem_append.mp hb with hbC | hbV
          · exact hcompat a (Or.inl hvP) b hbC
          · have : b = a := by simpa using hbV
            exact absurd this.symm hab
      · intro x hx c hc
        rcases List.mem_append.mp hc with hcC | hcV
        · rcases hx with hx | hx
          · exact hcompat x (Or.inl (List.mem_filter.mp hx).1) c hcC
          · exact hcompat x (Or.inr (List.mem_filter.mp hx).1) c hcC
        · have hcv : c = v := by simpa using hcV
          subst hcv
          rcases hx with hx | hx
          · rw [hsym x c]; exact (List.mem_filter.mp hx).2
          · rw [hsym x c]; exact (List.mem_filter.mp hx).2
    have hlen' : (P.filter (fun w => G.adjacency v w)).length < f := by
      have h1 := @length_filter_lt P (fun w => G.adjacency v w) v hvP (hirr v)
      omega
    obtain ⟨IHhead_rec, IHhead_cpl, IHhead_pw⟩ := IH _ _ _ hinv' hlen'
    -- invariant for the remaining loop
    have hinv'' : BKInv G C (swapRemove P v) (S ++ [v]) := by
      refine ⟨hCnd, swapRemove_nodup v hPnd, ?_, ?_, ?_, ?_, hCcl, ?_⟩
      · simp [List.nodup_append, hSnd, hvS]
      · intro x hx
        exact hPC x ((mem_swapRemove hPnd).mp hx).1
      · intro x hx
        rcases List.mem_append.mp hx with hx | hx
        · exact hSC x hx
        · have : x = v := by simpa using hx
          subst this; exact hvC
      · intro x hx
        obtain ⟨hxP, hxv⟩ := (mem_swapRemove hPnd).mp hx
        intro hmem
        rcases List.mem_append.mp hmem with hmem | hmem
        · exact hPS x hxP hmem
        · exact hxv (by simpa using hmem)
      · intro x hx c hc
        rcases hx with hx | hx
        · exact hcompat x (Or.inl ((mem_swapRemove hPnd).mp hx).1) c hc
        · rcases List.mem_append.mp hx with hx | hx
          · exact hcompat x (Or.inr hx) c hc
          · have : x = v := by simpa using hx
            subst this
            exact hcompat x (Or.inl hvP) c hc
    have hlen'' : (swapRemove P v).length ≤ f :=
      Nat.le_trans (swapRemove_length_le P v) hlen
    have hsub'' : ∀ x ∈ rest, x ∈ swapRemove P v := by
      intro x hx
      have hxv : x ≠ v := by
        intro h; subst h; exact hvrest hx
      exact (mem_swapRemove hPnd).mpr ⟨hsubc x (List.mem_cons_of_mem v hx), hxv⟩
    obtain ⟨IHtail_rec, IHtail_cpl, IHtail_pw⟩ :=
      ih C (swapRemove P v) (S ++ [v]) hinv'' hlen''
        (List.nodup_cons.mp hnd).2 hsub''
    simp only [bkLoop]
    refine ⟨?_, ?_, ?_⟩
    · -- records
      intro R hR
      rcases List.mem_append.mp hR with hR | hR
      · obtain ⟨hRnd, hRC, hRmem, hRcl, hRmax⟩ := IHhead_rec R hR
        have hvR : v ∈ R := hRC v (List.mem_append.mpr (Or.inr (List.mem_singleton_self v)))
        refine ⟨⟨hRnd, ?_, ?_, hRcl, ?_⟩, ⟨v, List.mem_cons_self v rest, hvR⟩⟩
        · intro c hc
          exact hRC c (List.mem_append.mpr (Or.inl hc))
        · intro x hx
          rcases hRmem x hx with hx' | hx'
          · rcases List.mem_append.mp hx' with h | h
            · exact Or.inl h
            · have : x = v := by simpa using h
              subst this; exact Or.inr hvP
          · exact Or.inr (List.mem_filter.mp hx').1
        · intro x hx hxR
          by_cases hadj : G.adjacency v x = true
          · rcases hx with hx | hx
            · exact hRmax x (Or.inl (List.mem_filter.mpr ⟨hx, hadj⟩)) hxR
            · exact hRmax x (Or.inr (List.mem_filter.mpr ⟨hx, hadj⟩)) hxR
          · refine ⟨v, hvR, ?_⟩
            rw [hsym x v]
            exact Bool.not_eq_true _ |>.mp hadj
      · obtain ⟨⟨hRnd, hRC, hRmem, hRcl, hRmax⟩, ⟨w, hw, hwR⟩⟩ := IHtail_rec R hR
        refine ⟨⟨hRnd, hRC, ?_, hRcl, ?_⟩, ⟨w, List.mem_cons_of_mem v hw, hwR⟩⟩
        · intro x hx
          rcases hRmem x hx with hx' | hx'
          · exact Or.inl hx'
          · exact Or.inr ((mem_swapRemove hPnd).mp hx').1
        · intro x hx hxR
          by_cases hxv : x = v
          · subst hxv
            exact hRmax x (Or.inr (List.mem_append.mpr
              (Or.inr (List.mem_singleton_self x)))) hxR
          · rcases hx with hx | hx
            · exact hRmax x (Or.inl ((mem_swapRemove hPnd).mpr ⟨hx, hxv⟩)) hxR
            · exact hRmax x (Or.inr (List.mem_append.mpr (Or.inl hx))) hxR
    · -- completeness
      rintro M hM ⟨v0, hv0c, hv0M⟩
      obtain ⟨hMC, hMmem, hMcl, hMmax⟩ := hM
      by_cases hvM : v ∈ M
      · have hM' : TargetSet G (C ++ [v]) (P.filter (fun w => G.adjacency v w))
            (S.filter (fun w => G.adjacency v w)) M := by
        -- placeholder, replaced below
          refine ⟨?_, ?_, hMcl, ?_⟩
          · intro c hc
            rcases List.mem_append.mp hc with hc | hc
            · exact hMC c hc
            · have : c = v := by simpa using hc
              subst this; exact hvM
          · intro x hx
            rcases hMmem x hx with hx' | hx'
            · exact Or.inl (List.mem_append.mpr (Or.inl hx'))
            · by_cases hxv : x = v
              · subst hxv
                exact Or.inl (List.mem_append.mpr (Or.inr (List.mem_singleton_self x)))
              · refine Or.inr (List.mem_filter.mpr ⟨hx', ?_⟩)
                exact hMcl v hvM x hx (fun h => hxv h.symm)
          · intro x hx hxM
            rcases hx with hx | hx
            · exact hMmax x (Or.inl (List.mem_filter.mp hx).1) hxM
            · exact hMmax x (Or.inr (List.mem_filter.mp hx).1) hxM
        obtain ⟨R, hR, hRF⟩ := IHhead_cpl M hM'
        exact ⟨R, List.mem_append.mpr (Or.inl hR), hRF⟩
      · have hv0v : v0 ≠ v := by
          intro h; subst h; exact hvM hv0M
        have hv0rest : v0 ∈ rest := by
          rcases List.mem_cons.mp hv0c with h | h
          · exact absurd h hv0v
          · exact h
        have hM'' : TargetSet G C (swapRemove P v) (S ++ [v]) M := by
          refine ⟨hMC, ?_, hMcl, ?_⟩
          · intro x hx
            rcases hMmem x hx with hx' | hx'
            · exact Or.inl hx'
            · have hxv : x ≠ v := by
                intro h; subst h; exact hvM hx
              exact Or.inr ((mem_swapRemove hPnd).mpr ⟨hx', hxv⟩)
          · intro x hx hxM
            rcases hx with hx | hx
            · exact hMmax x (Or.inl ((mem_swapRemove hPnd).mp hx).1) hxM
            · rcases List.mem_append.mp hx with hx | hx
              · exact hMmax x (Or.inr hx) hxM
              · have : x = v := by simpa using hx
                subst this
                exact hMmax x (Or.inl hvP) hxM
        obtain ⟨R, hR, hRF⟩ := IHtail_cpl M hM'' ⟨v0, hv0rest, hv0M⟩
        exact ⟨R, List.mem_append.mpr (Or.inr hR), hRF⟩
    · -- pairwise distinct as sets
      rw [List.pairwise_append]
      refine ⟨IHhead_pw, IHtail_pw, ?_⟩
      intro R1 hR1 R2 hR2
      have hvR1 : v ∈ R1 :=
        (IHhead_rec R1 hR1).2.1 v
          (List.mem_append.mpr (Or.inr (List.mem_singleton_self v)))
      have hvR2 : v ∉ R2 := by
        intro hv2
        rcases (IHtail_rec R2 hR2).1.2.2.1 v hv2 with h | h
        · exact hvC h
        · exact ((mem_swapRemove hPnd).mp h).2 rfl
      intro heq
      apply hvR2
      rw [← List.mem_toFinset, ← heq, List.mem_toFinset]
      exact hvR1

/-- Full specification of the fuel-bounded Bron–Kerbosch enumerator: under
the recursion invariant and sufficient fuel, the records are exactly the
relatively maximal cliques, without repetition as sets. -/
theorem bkAux_spec (G : Graph)
    (hsym : ∀ i j, G.adjacency i j = G.adjacency j i)
    (hirr : ∀ i, G.adjacency i i = false) :
    ∀ f C P S, BKInv G C P S → P.length < f →
      (∀ R ∈ bkAux G f C P S, RecordOK G C P S R) ∧
      (∀ M : Finset Nat, TargetSet G C P S M →
        ∃ R ∈ bkAux G f C P S, R.toFinset = M) ∧
      (bkAux G f C P S).Pairwise (fun R1 R2 => R1.toFinset ≠ R2.toFinset) := by
  intro f
  induction f with
  | zero => intro C P S _ h; omega
  | succ f ihf =>
    intro C P S hinv hlen
    obtain ⟨hCnd, hPnd, hSnd, hPC, hSC, hPS, hCcl, hcompat⟩ := hinv
    simp only [bkAux]
    by_cases hbase : P.length = 0 ∧ S.length = 0
    · rw [if_pos hbase]
      have hPnil : P = [] := List.length_eq_zero.mp hbase.1
      have hSnil : S = [] := List.length_eq_zero.mp hbase.2
      subst hPnil; subst hSnil
      refine ⟨?_, ?_, List.pairwise_singleton _ _⟩
      · intro R hR
        have hRC : R = C := by simpa using hR
        subst hRC
        refine ⟨hCnd, fun c hc => hc, fun x hx => Or.inl hx, hCcl, ?_⟩
        intro x hx
        rcases hx with hx | hx
        · cases hx
        · cases hx
      · intro M hM
        obtain ⟨hMC, hMmem, _, _⟩ := hM
        refine ⟨C, List.mem_singleton_self C, ?_⟩
        apply Finset.ext
        intro x
        rw [List.mem_toFinset]
        constructor
        · exact hMC x
        · intro hx
          rcases hMmem x hx with hx' | hx'
          · exact hx'
          · cases hx'
    · rw [if_neg hbase]
      have hinv' : BKInv G C P S :=
        ⟨hCnd, hPnd, hSnd, hPC, hSC, hPS, hCcl, hcompat⟩
      obtain ⟨Lrec, Lcpl, Lpw⟩ := bkLoop_spec G hsym hirr f ihf
        (P.filter (fun v =>
          match pivot G P S with
          | none => true
          | some x => !G.adjacency x v)) C P S hinv'
        (Nat.lt_succ_iff.mp hlen) (hPnd.filter _)
        (fun v hv => (List.mem_filter.mp hv).1)
      refine ⟨?_, ?_, Lpw⟩
      · intro R hR
        exact (Lrec R hR).1
      · intro M hM
        obtain ⟨hMC, hMmem, hMcl, hMmax⟩ := hM
        -- every target meets the candidate list, by the pivot argument
        have hne : P ++ S ≠ [] := by
          intro h0
          rcases List.append_eq_nil.mp h0 with ⟨h1, h2⟩
          exact hbase ⟨by rw [h1]; rfl, by rw [h2]; rfl⟩
        obtain ⟨u, hu_eq, humem⟩ := pivot_some G P S hne
        have humem' : u ∈ P ∨ u ∈ S := List.mem_append.mp humem
        have hhit : ∃ v ∈ P.filter (fun v =>
            match pivot G P S with
            | none => true
            | some x => !G.adjacency x v), v ∈ M := by
          by_contra hnone
          push_neg at hnone
          have huM : u ∉ M := by
            intro huM
            rcases hMmem u huM with h | h
            · rcases humem' with h' | h'
              · exact hPC u h' h
              · exact hSC u h' h
            · have hucand : u ∈ P.filter (fun v =>
                  match pivot G P S with
                  | none => true
                  | some x => !G.adjacency x v) := by
                refine List.mem_filter.mpr ⟨h, ?_⟩
                rw [hu_eq]
                simp [hirr u]
              exact hnone u hucand huM
          have halladj : ∀ m ∈ M, G.adjacency u m = true := by
            intro m hm
            rcases hMmem m hm with h | h
            · exact hcompat u humem' m h
            · have hmcand : m ∉ P.filter (fun v =>
                  match pivot G P S with
                  | none => true
                  | some x => !G.adjacency x v) := fun hc => hnone m hc hm
              by_contra hadj
              apply hmcand
              refine List.mem_filter.mpr ⟨h, ?_⟩
              rw [hu_eq]
              simp only [Bool.not_eq_true] at hadj
              simp [hadj]
          obtain ⟨m, hm, hfalse⟩ := hMmax u humem' huM
          rw [halladj m hm] at hfalse
          cases hfalse
        exact Lcpl M ⟨hMC, hMmem, hMcl, hMmax⟩ hhit

/-- The invariant holds at the canonical start `C = ∅`, `P = {0..n-1}`,
`S = ∅`. -/
theorem BKInv_top (G : Graph) : BKInv G [] (List.range G.node_count) [] := by
  refine ⟨List.nodup_nil, List.nodup_range _, List.nodup_nil, ?_, ?_, ?_, ?_, ?_⟩
  · intro x _ hx; cases hx
  · intro x hx; cases hx
  · intro x _ hx; cases hx
  · intro a ha; cases ha
  · intro x _ c hc; cases hc

/-- A record at the canonical start is a maximal clique. -/
theorem recordOK_top {G : Graph} {R : List Nat}
    (h : RecordOK G [] (List.range G.node_count) [] R) : IsMaxClique G R := by
  obtain ⟨_, _, hmem, hcl, hmax⟩ := h
  refine ⟨hcl, ?_, ?_⟩
  · intro x hx
    rcases hmem x hx with h0 | h0
    · cases h0
    · exact List.mem_range.mp h0
  · intro x hxlt hxR
    exact hmax x (Or.inl (List.mem_range.mpr hxlt)) hxR

/-- A maximal clique is a target at the canonical start. -/
theorem targetSet_top {G : Graph} {M : Finset Nat} (h : IsMaxCliqueF G M) :
    TargetSet G [] (List.range G.node_count) [] M := by
  obtain ⟨hcl, hbound, hmax⟩ := h
  refine ⟨fun c hc => absurd hc (List.not_mem_nil c), ?_, hcl, ?_⟩
  · intro x hx
    exact Or.inr (List.mem_range.mpr (hbound x hx))
  · intro x hx hxM
    rcases hx with hx | hx
    · exact hmax x (List.mem_range.mp hx) hxM
    · cases hx

/-- Two maximal cliques related by list inclusion have the same members. -/
theorem maxClique_subset_eq {G : Graph} {R1 R2 : List Nat}
    (h1 : IsMaxClique G R1) (h2 : IsMaxClique G R2) (hsub : R1 ⊆ R2) :
    R1.toFinset = R2.toFinset := by
  apply Finset.ext
  intro x
  rw [List.mem_toFinset, List.mem_toFinset]
  constructor
  · exact fun hx => hsub hx
  · intro hx
    by_contra hxR1
    obtain ⟨r, hr, hfalse⟩ := h1.2.2 x (h2.2.1 x hx) hxR1
    have hxr : x ≠ r := by
      intro h; subst h; exact hxR1 hr
    rw [h2.1 x hx r (hsub hr) hxr] at hfalse
    cases hfalse

/-! ### Soundness of the exhaustive enumerator -/

/-- Loop part: with `C` a clique and every candidate adjacent to all of `C`,
every record of the exhaustive loop is a clique. -/
theorem allLoop_sound (G : Graph)
    (hsym : ∀ i j, G.adjacency i j = G.adjacency j i)
    (rec : List Nat → List Nat → List Nat → List (List Nat))
    (hrec : ∀ C P S, IsCliqueL G C →
      (∀ x ∈ P, ∀ c ∈ C, G.adjacency x c = true) →
      ∀ R ∈ rec C P S, IsCliqueL G R) :
    ∀ P C S, IsCliqueL G C →
      (∀ x ∈ P, ∀ c ∈ C, G.adjacency x c = true) →
      ∀ R ∈ allLoop G rec C P S, IsCliqueL G R := by
  intro P
  induction P with
  | nil => intro C S _ _ R hR; cases hR
  | cons v rest ih =>
    intro C S hCcl hcompat R hR
    have hv : v ∈ v :: rest := List.mem_cons_self v rest
    rcases List.mem_append.mp hR with hR | hR
    · refine hrec (C ++ [v]) _ _ ?_ ?_ R hR
      · intro a ha b hb hab
        rcases List.mem_append.mp ha with haC | haV
        · rcases List.mem_append.mp hb with hbC | hbV
          · exact hCcl a haC b hbC hab
          · have : b = v := by simpa using hbV
            subst this
            rw [hsym a b]
            exact hcompat b hv a haC
        · have : a = v := by simpa using haV
          subst this
          rcases List.mem_append.mp hb with hbC | hbV
          · exact hcompat a hv b hbC
          · have : b = a := by simpa using hbV
            exact absurd this.symm hab
      · intro x hx c hc
        obtain ⟨hxP, hxadj⟩ := List.mem_filter.mp hx
        rcases List.mem_append.mp hc with hcC | hcV
        · exact hcompat x hxP c hcC
        · have : c = v := by simpa using hcV
          subst this
          rw [hsym x c]
          exact hxadj
    · exact ih C (S ++ [v]) hCcl
        (fun x hx => hcompat x (List.mem_cons_of_mem v hx)) R hR

/-- With `C` a clique and every candidate adjacent to all of `C`, every
record of find_all_cliques is a clique. -/
theorem allCliquesAux_sound (G : Graph)
    (hsym : ∀ i j, G.adjacency i j = G.adjacency j i) :
    ∀ f C P S, IsCliqueL G C →
      (∀ x ∈ P, ∀ c ∈ C, G.adjacency x c = true) →
      ∀ R ∈ allCliquesAux G f C P S, IsCliqueL G R := by
  intro f
  induction f with
  | zero => intro C P S _ _ R hR; cases hR
  | succ f ih =>
    intro C P S hCcl hcompat R hR
    simp only [allCliquesAux] at hR
    rcases List.mem_append.mp hR with hR | hR
    · by_cases hC : C.length > 0
      · rw [if_pos hC] at hR
        have : R = C := by simpa using hR
        subst this; exact hCcl
      · rw [if_neg hC] at hR; cases hR
    · exact allLoop_sound G hsym (allCliquesAux G f) ih P C S hCcl hcompat R hR

/-! ### Symmetry and irreflexivity of the concrete graphs -/

theorem Gpath_sym : ∀ i j, Gpath.adjacency i j = Gpath.adjacency j i := by
  intro i j
  exact decide_eq_decide.mpr or_comm

theorem Gpath_irr : ∀ i, Gpath.adjacency i i = false := by
  intro i
  apply decide_eq_false
  intro h
  rcases h with h | h <;> simp [List.mem_cons, Prod.mk.injEq] at h <;> omega

/-! ### Claims C3, C4, C5 -/

/-- C3: on a symmetric irreflexive undirected graph, every vertex set
recorded by find_all_cliques and every vertex set recorded by
find_maximal_cliques from the canonical start (empty current set, all
vertices candidates, empty excluded set) is a clique. -/
theorem claim_C3_clique_soundness (G : Graph)
    (hdir : G.is_directed = false)
    (hsym : ∀ i j, G.adjacency i j = G.adjacency j i)
    (hirr : ∀ i, G.adjacency i i = false) :
    (∀ R ∈ find_all_cliques G [] (List.range G.node_count) [], IsCliqueL G R) ∧
    (∀ R ∈ find_maximal_cliques G [] (List.range G.node_count) [],
      IsCliqueL G R) := by
  constructor
  · intro R hR
    exact allCliquesAux_sound G hsym _ [] (List.range G.node_count) []
      (fun a ha => absurd ha (List.not_mem_nil a))
      (fun x _ c hc => absurd hc (List.not_mem_nil c)) R hR
  · intro R hR
    exact ((bkAux_spec G hsym hirr ((List.range G.node_count).length + 1)
      [] (List.range G.node_count) [] (BKInv_top G) (Nat.lt_succ_self _)).1
      R hR).2.2.2.1

/-- C3 witness: instantiated on the path graph. -/
theorem claim_C3_witness :
    (∀ R ∈ find_all_cliques Gpath [] (List.range Gpath.node_count) [],
      IsCliqueL Gpath R) ∧
    (∀ R ∈ find_maximal_cliques Gpath [] (List.range Gpath.node_count) [],
      IsCliqueL Gpath R) :=
  claim_C3_clique_soundness Gpath rfl Gpath_sym Gpath_irr

/-- C4: on a symmetric irreflexive undirected graph, the collection recorded
by find_maximal_cliques from the canonical start is exactly the set of
maximal cliques, each produced exactly once: every record is a maximal
clique, every maximal clique appears, no two records are equal as sets, and
no record is contained in another. -/
theorem claim_C4_bron_kerbosch_exact (G : Graph)
    (hdir : G.is_directed = false)
    (hsym : ∀ i j, G.adjacency i j = G.adjacency j i)
    (hirr : ∀ i, G.adjacency i i = false) :
    (∀ R ∈ find_maximal_cliques G [] (List.range G.node_count) [],
      IsMaxClique G R) ∧
    (∀ M : Finset Nat, IsMaxCliqueF G M →
      ∃ R ∈ find_maximal_cliques G [] (List.range G.node_count) [],
        R.toFinset = M) ∧
    (find_maximal_cliques G [] (List.range G.node_count) []).Pairwise
      (fun R1 R2 => R1.toFinset ≠ R2.toFinset) ∧
    (find_maximal_cliques G [] (List.range G.node_count) []).Pairwise
      (fun R1 R2 => ¬ R1 ⊆ R2 ∧ ¬ R2 ⊆ R1) := by
  obtain ⟨hrec, hcpl, hpw⟩ := bkAux_spec G hsym hirr
    ((List.range G.node_count).length + 1) [] (List.range G.node_count) []
    (BKInv_top G) (Nat.lt_succ_self _)
  have hmax : ∀ R ∈ find_maximal_cliques G [] (List.range G.node_count) [],
      IsMaxClique G R := fun R hR => recordOK_top (hrec R hR)
  refine ⟨hmax, ?_, hpw, ?_⟩
  · intro M hM
    exact hcpl M (targetSet_top hM)
  · refine hpw.imp_of_mem ?_
    intro R1 R2 h1 h2 hne
    constructor
    · intro hsub
      exact hne (maxClique_subset_eq (hmax R1 h1) (hmax R2 h2) hsub)
    · intro hsub
      exact hne (maxClique_subset_eq (hmax R2 h2) (hmax R1 h1) hsub).symm

/-- C4 witness: instantiated on the path graph. -/
theorem claim_C4_witness :
    (∀ R ∈ find_maximal_cliques Gpath [] (List.range Gpath.node_count) [],
      IsMaxClique Gpath R) ∧
    (∀ M : Finset Nat, IsMaxCliqueF Gpath M →
      ∃ R ∈ find_maximal_cliques Gpath [] (List.range Gpath.node_count) [],
        R.toFinset = M) ∧
    (find_maximal_cliques Gpath [] (List.range Gpath.node_count) []).Pairwise
      (fun R1 R2 => R1.toFinset ≠ R2.toFinset) ∧
    (find_maximal_cliques Gpath [] (List.range Gpath.node_count) []).Pairwise
      (fun R1 R2 => ¬ R1 ⊆ R2 ∧ ¬ R2 ⊆ R1) :=
  claim_C4_bron_kerbosch_exact Gpath rfl Gpath_sym Gpath_irr

/-- C5: find_maximum_clique is absent exactly on the empty graph; on a
symmetric irreflexive undirected graph with at least one vertex it returns
a maximal clique recorded by the enumerator whose size dominates every
recorded maximal clique. -/
theorem claim_C5_maximum_clique (G : Graph)
    (hdir : G.is_directed = false)
    (hsym : ∀ i j, G.adjacency i j = G.adjacency j i)
    (hirr : ∀ i, G.adjacency i i = false) :
    (find_maximum_clique G = none ↔ G.node_count = 0) ∧
    (1 ≤ G.node_count →
      ∃ c, find_maximum_clique G = some c ∧
        c ∈ find_maximal_cliques G [] (List.range G.node_count) [] ∧
        (∀ R ∈ find_maximal_cliques G [] (List.range G.node_count) [],
          R.length ≤ c.length) ∧
        IsMaxClique G c) := by
  have hmain : 1 ≤ G.node_count →
      ∃ c, find_maximum_clique G = some c ∧
        c ∈ find_maximal_cliques G [] (List.range G.node_count) [] ∧
        (∀ R ∈ find_maximal_cliques G [] (List.range G.node_count) [],
          R.length ≤ c.length) ∧
        IsMaxClique G c := by
    intro hn
    obtain ⟨R, hR, _, hpos⟩ := bkAux_exists_record G hirr
      ((List.range G.node_count).length + 1) [] (List.range G.node_count)
      (Nat.lt_succ_self _)
    have hPne : List.range G.node_count ≠ [] := by
      intro h0
      rw [List.range_eq_nil] at h0
      omega
    have h1 : 1 ≤ R.length := by simpa using hpos hPne
    obtain ⟨c, hc⟩ := selectBest_isSome
      (find_maximal_cliques G [] (List.range G.node_count) []) none
      ⟨R, hR, by simpa [bestSize] using h1⟩
    have hcmem : c ∈ find_maximal_cliques G [] (List.range G.node_count) [] := by
      rcases selectBest_mem _ _ _ hc with h | h
      · exact h
      · cases h
    have hge := (selectBest_ge _ _ _ hc).1
    refine ⟨c, hc, hcmem, hge, ?_⟩
    exact recordOK_top ((bkAux_spec G hsym hirr
      ((List.range G.node_count).length + 1) [] (List.range G.node_count) []
      (BKInv_top G) (Nat.lt_succ_self _)).1 c hcmem)
  refine ⟨⟨?_, ?_⟩, hmain⟩
  · intro hnone
    by_contra h0
    obtain ⟨c, hc, _⟩ := hmain (Nat.one_le_iff_ne_zero.mpr h0)
    rw [hnone] at hc
    cases hc
  · intro h0
    unfold find_maximum_clique find_maximal_cliques
    rw [h0]
    rfl

/-- C5 witness: instantiated on the path graph. -/
theorem claim_C5_witness :
    (find_maximum_clique Gpath = none ↔ Gpath.node_count = 0) ∧
    (1 ≤ Gpath.node_count →
      ∃ c, find_maximum_clique Gpath = some c ∧
        c ∈ find_maximal_cliques Gpath [] (List.range Gpath.node_count) [] ∧
        (∀ R ∈ find_maximal_cliques Gpath [] (List.range Gpath.node_count) [],
          R.length ≤ c.length) ∧
        IsMaxClique Gpath c) :=
  claim_C5_maximum_clique Gpath rfl Gpath_sym Gpath_irr

/-! ### Greedy 2-approximate cover (C8) -/

/-- Filtering with a pointwise weaker predicate yields at most as many
elements. -/
theorem length_filter_mono {E : List Nat} {p q : Nat → Bool}
    (h : ∀ a, p a = true → q a = true) :
    (E.filter p).length ≤ (E.filter q).length := by
  induction E with
  | nil => exact Nat.le_refl 0
  | cons e es ih =>
    by_cases hp : p e = true
    · rw [List.filter_cons_of_pos hp, List.filter_cons_of_pos (h e hp)]
      simpa using ih
    · rw [List.filter_cons_of_neg (by simpa using hp)]
      by_cases hq : q e = true
      · rw [List.filter_cons_of_pos hq]
        exact Nat.le_succ_of_le ih
      · rw [List.filter_cons_of_neg (by simpa using hq)]
        exact ih

/-- Filtering with a pointwise stronger predicate that newly accepts a
member gains at least one element. -/
theorem length_filter_succ_le {E : List Nat} {p q : Nat → Bool}
    (h : ∀ a, p a = true → q a = true) {w : Nat}
    (hw : w ∈ E) (hqw : q w = true) (hpw : p w = false) :
    (E.filter p).length + 1 ≤ (E.filter q).length := by
  induction E with
  | nil => cases hw
  | cons e es ih =>
    rcases List.mem_cons.mp hw with rfl | hwes
    · rw [List.filter_cons_of_neg (by simp [hpw]), List.filter_cons_of_pos hqw]
      simpa using length_filter_mono h
    · by_cases hp : p e = true
      · rw [List.filter_cons_of_pos hp, List.filter_cons_of_pos (h e hp)]
        simpa using ih hwes
      · rw [List.filter_cons_of_neg (by simpa using hp)]
        by_cases hq : q e = true
        · rw [List.filter_cons_of_pos hq]
          exact Nat.le_succ_of_le (ih hwes)
        · rw [List.filter_cons_of_neg (by simpa using hq)]
          exact ih hwes

/-- The complement matrix of a symmetric matrix is symmetric. -/
theorem compGraph_sym {G : Graph}
    (hsym : ∀ i j, G.adjacency i j = G.adjacency j i) :
    ∀ i j, (compGraph G).adjacency i j = (compGraph G).adjacency j i := by
  intro i j
  simp only [compGraph, complementAdj]
  by_cases hij : i = j
  · subst hij; rfl
  · rw [if_neg hij, if_neg (Ne.symm hij), hsym i j]

/-- One iteration of the greedy cover scan preserves the invariant: the
marker agrees with cover membership, the cover stays within twice the
marked part of any fixed valid cover `E`, markers only grow, and the
scanned vertex ends up covered or with all neighbours covered. -/
theorem vcApproxStep_spec (G : Graph) (hirr : ∀ i, G.adjacency i i = false)
    (E : List Nat)
    (hEcov : ∀ a < G.node_count, ∀ b < G.node_count,
      G.adjacency a b = true → a ∈ E ∨ b ∈ E)
    (st : (Nat → Bool) × List Nat) (u : Nat) (hu : u < G.node_count)
    (hI1 : ∀ x, st.1 x = true ↔ x ∈ st.2)
    (hI3 : st.2.length ≤ 2 * (E.filter (fun e => st.1 e)).length) :
    (∀ x, (vcApproxStep G st u).1 x = true ↔ x ∈ (vcApproxStep G st u).2) ∧
    (vcApproxStep G st u).2.length ≤
      2 * (E.filter (fun e => (vcApproxStep G st u).1 e)).length ∧
    (∀ x, st.1 x = true → (vcApproxStep G st u).1 x = true) ∧
    ((vcApproxStep G st u).1 u = true ∨
      ∀ v < G.node_count, G.adjacency u v = true →
        (vcApproxStep G st u).1 v = true) := by
  by_cases hmu : st.1 u = true
  · have h0 : vcApproxStep G st u = st := by
      unfold vcApproxStep; rw [if_pos hmu]
    rw [h0]
    exact ⟨hI1, hI3, fun x h => h, Or.inl hmu⟩
  · cases hfind : (List.range G.node_count).find?
        (fun v => G.adjacency u v && !st.1 v) with
    | none =>
      have h0 : vcApproxStep G st u = st := by
        unfold vcApproxStep; rw [if_neg hmu, hfind]
      rw [h0]
      refine ⟨hI1, hI3, fun x h => h, Or.inr ?_⟩
      intro v hv hadj
      have := List.find?_eq_none.mp hfind v (List.mem_range.mpr hv)
      simp only [Bool.and_eq_true, Bool.not_eq_true'] at this
      by_contra hnv
      exact this ⟨hadj, Bool.not_eq_true _ |>.mp hnv⟩
    | some v =>
      have hp := List.find?_some hfind
      simp only [Bool.and_eq_true, Bool.not_eq_true'] at hp
      obtain ⟨hadj, hmv⟩ := hp
      have hv : v < G.node_count :=
        List.mem_range.mp (List.mem_of_find?_eq_some hfind)
      have hvu : v ≠ u := by
        intro h; subst h; rw [hirr v] at hadj; cases hadj
      have h0 : vcApproxStep G st u =
          (fun x => if x = v then true else if x = u then true else st.1 x,
            (st.2 ++ [u]) ++ [v]) := by
        unfold vcApproxStep
        rw [if_neg hmu, hfind]
        simp only [if_neg hmu]
        have hcond : ((fun x => if x = u then true else st.1 x) v) = false := by
          simp [hvu, hmv]
        simp [hcond]
      rw [h0]
      dsimp only
      have hmono : ∀ x, st.1 x = true →
          (if x = v then true else if x = u then true else st.1 x) = true := by
        intro x hx
        by_cases h1 : x = v
        · simp [h1]
        · by_cases h2 : x = u
          · simp [h1, h2]
          · simp [h1, h2, hx]
      refine ⟨?_, ?_, hmono, Or.inl (by simp [hvu.symm])⟩
      · intro x
        by_cases h1 : x = v
        · simp [h1]
        · by_cases h2 : x = u
          · simp [h1, h2]
          · simp only [if_neg h1, if_neg h2]
            rw [hI1 x]
            simp [h1, h2]
      · have hw : u ∈ E ∨ v ∈ E := hEcov u hu v hv hadj
        have hgain : (E.filter (fun e => st.1 e)).length + 1 ≤
            (E.filter (fun e =>
              if e = v then true else if e = u then true else st.1 e)).length := by
          rcases hw with hw | hw
          · exact length_filter_succ_le hmono hw (by simp [hvu.symm])
              (Bool.not_eq_true _ |>.mp hmu)
          · exact length_filter_succ_le hmono hw (by simp) hmv
        calc ((st.2 ++ [u]) ++ [v]).length
            = st.2.length + 2 := by simp
          _ ≤ 2 * ((E.filter (fun e => st.1 e)).length + 1) := by omega
          _ ≤ 2 * (E.filter (fun e =>
              if e = v then true else if e = u then true else st.1 e)).length :=
            Nat.mul_le_mul_left 2 hgain

/-- The greedy scan invariant carried over the whole vertex loop. -/
theorem vcApprox_fold (G : Graph) (hirr : ∀ i, G.adjacency i i = false)
    (E : List Nat)
    (hEcov : ∀ a < G.node_count, ∀ b < G.node_count,
      G.adjacency a b = true → a ∈ E ∨ b ∈ E) :
    ∀ (us : List Nat) (st : (Nat → Bool) × List Nat),
      (∀ u ∈ us, u < G.node_count) →
      (∀ x, st.1 x = true ↔ x ∈ st.2) →
      st.2.length ≤ 2 * (E.filter (fun e => st.1 e)).length →
      (∀ x, (us.foldl (vcApproxStep G) st).1 x = true ↔
        x ∈ (us.foldl (vcApproxStep G) st).2) ∧
      (us.foldl (vcApproxStep G) st).2.length ≤
        2 * (E.filter (fun e => (us.foldl (vcApproxStep G) st).1 e)).length ∧
      (∀ x, st.1 x = true → (us.foldl (vcApproxStep G) st).1 x = true) ∧
      (∀ u ∈ us, (us.foldl (vcApproxStep G) st).1 u = true ∨
        ∀ v < G.node_count, G.adjacency u v = true →
          (us.foldl (vcApproxStep G) st).1 v = true) := by
  intro us
  induction us with
  | nil =>
    intro st _ hI1 hI3
    exact ⟨hI1, hI3, fun x h => h, fun u hu => absurd hu (List.not_mem_nil u)⟩
  | cons u rest ih =>
    intro st hb hI1 hI3
    rw [List.foldl_cons]
    obtain ⟨hI1', hI3', hmono', hcov'⟩ :=
      vcApproxStep_spec G hirr E hEcov st u (hb u (List.mem_cons_self u rest))
        hI1 hI3
    obtain ⟨hI1'', hI3'', hmono'', hcov''⟩ :=
      ih (vcApproxStep G st u) (fun w hw => hb w (List.mem_cons_of_mem u hw))
        hI1' hI3'
    refine ⟨hI1'', hI3'', fun x hx => hmono'' x (hmono' x hx), ?_⟩
    intro w hw
    rcases List.mem_cons.mp hw with rfl | hwrest
    · rcases hcov' with h | h
      · exact Or.inl (hmono'' w h)
      · exact Or.inr (fun v hv hadj => hmono'' v (h v hv hadj))
    · exact hcov'' w hwrest

/-- C8: on a symmetric irreflexive undirected graph, whenever the exact
cover is produced, the greedy cover is a valid vertex cover of size at most
twice the exact cover's size. -/
theorem claim_C8_approx_two_bound (G : Graph)
    (hdir : G.is_directed = false)
    (hsym : ∀ i j, G.adjacency i j = G.adjacency j i)
    (hirr : ∀ i, G.adjacency i i = false)
    (E : List Nat) (hE : vertex_cover_exact_via_mis G = some E) :
    ∃ A, vertex_cover_approx G = some A ∧
      A.length ≤ 2 * E.length ∧ IsVertexCover G A := by
  have hcc : create_complement_graph G = some (compGraph G) := by
    unfold create_complement_graph; rw [hdir]; rfl
  cases hmis : find_maximum_clique (compGraph G) with
  | none =>
    simp only [vertex_cover_exact_via_mis, hdir, hcc, hmis] at hE
    cases hE
  | some mis =>
    simp only [vertex_cover_exact_via_mis, hdir, hcc, hmis] at hE
    have hEdef : E = (List.range G.node_count).filter (fun v => !mis.contains v) := by
      simpa using hE.symm
    have hmem := find_maximum_clique_mem hmis
    unfold find_maximal_cliques at hmem
    have hcl : IsCliqueL (compGraph G) mis :=
      ((bkAux_spec (compGraph G) (compGraph_sym hsym) (complementAdj_irrefl G)
        ((List.range (compGraph G).node_count).length + 1) []
        (List.range (compGraph G).node_count) [] (BKInv_top (compGraph G))
        (Nat.lt_succ_self _)).1 mis hmem).2.2.2.1
    have hind : ∀ a ∈ mis, ∀ b ∈ mis, a ≠ b → G.adjacency a b = false := by
      intro a ha b hb hab
      have h1 := hcl a ha b hb hab
      simp only [compGraph, complementAdj] at h1
      rw [if_neg hab] at h1
      rw [Bool.not_eq_true'] at h1
      exact h1
    have hsplit : ∀ a, a < G.node_count → a ∈ E ∨ a ∈ mis := by
      intro a ha
      by_cases hc : a ∈ mis
      · exact Or.inr hc
      · refine Or.inl ?_
        rw [hEdef]
        refine List.mem_filter.mpr ⟨List.mem_range.mpr ha, ?_⟩
        simp [hc]
    have hEcov : ∀ a < G.node_count, ∀ b < G.node_count,
        G.adjacency a b = true → a ∈ E ∨ b ∈ E := by
      intro a ha b hb hadj
      rcases hsplit a ha with haE | haM
      · exact Or.inl haE
      · rcases hsplit b hb with hbE | hbM
        · exact Or.inr hbE
        · have hab : a ≠ b := by
            intro h; subst h; rw [hirr a] at hadj; cases hadj
          rw [hind a haM b hbM hab] at hadj
          cases hadj
    have h0 : vertex_cover_approx G =
        some (((List.range G.node_count).foldl (vcApproxStep G)
          (fun _ => false, [])).2) := by
      unfold vertex_cover_approx; rw [hdir]; rfl
    obtain ⟨hI1, hI3, _, hcov⟩ := vcApprox_fold G hirr E hEcov
      (List.range G.node_count) (fun _ => false, [])
      (fun u hu => List.mem_range.mp hu)
      (by intro x; simp)
      (by simp)
    refine ⟨_, h0, ?_, ?_⟩
    · exact Nat.le_trans hI3
        (Nat.mul_le_mul_left 2 (by rw [hEdef]; exact List.length_filter_le _ _))
    · intro a ha b hb hadj
      rcases hcov a (List.mem_range.mpr ha) with h | h
      · exact Or.inl ((hI1 a).mp h)
      · exact Or.inr ((hI1 b).mp (h b hb hadj))

/-- C8 witness: on the path graph the greedy cover [0,1,2,3] has size 4, at
most twice the exact cover's size 2, and is a valid cover. -/
theorem claim_C8_witness :
    ∃ A, vertex_cover_approx Gpath = some A ∧
      A.length ≤ 2 * ([1, 3] : List Nat).length ∧ IsVertexCover Gpath A :=
  claim_C8_approx_two_bound Gpath rfl Gpath_sym Gpath_irr [1, 3] (by decide)

/-! ### Bipartite detection rejects non-bipartite input (C9) -/

/-- Specification of one neighbour scan of the 2-colouring BFS: colours only
grow (never change once set), stay at most 2, queued additions are coloured,
the addition list only grows, every newly coloured vertex is in the
additions, and afterwards every scanned neighbour of `u` is coloured
differently from `u`. -/
theorem scanAdj_spec (G : Graph) (u : Nat) :
    ∀ vs color adds color' adds',
      scanAdj G u vs color adds = some (color', adds') →
      color u ≠ 0 →
      (∀ x ∈ adds, color x ≠ 0) →
      (∀ x, color x ≤ 2) →
      ((∀ x, color x ≠ 0 → color' x = color x) ∧
       (∀ x, color' x ≤ 2) ∧
       (∀ x ∈ adds', color' x ≠ 0) ∧
       (∀ x ∈ adds, x ∈ adds') ∧
       (∀ x, color' x ≠ 0 → color x ≠ 0 ∨ x ∈ adds') ∧
       (∀ j ∈ vs, G.adjacency u j = true → color' j ≠ 0 ∧ color' j ≠ color' u)) := by
  intro vs
  induction vs with
  | nil =>
    intro color adds color' adds' h hu hadds hle
    simp only [scanAdj] at h
    have h2 := Option.some.inj h
    have hc : color = color' := congrArg Prod.fst h2
    have ha : adds = adds' := congrArg Prod.snd h2
    subst hc; subst ha
    exact ⟨fun x _ => rfl, hle, hadds, fun x hx => hx,
      fun x hx => Or.inl hx, fun j hj => absurd hj (List.not_mem_nil j)⟩
  | cons v vs ih =>
    intro color adds color' adds' h hu hadds hle
    simp only [scanAdj] at h
    by_cases hadj : G.adjacency u v = true
    · rw [if_pos hadj] at h
      by_cases hv0 : color v = 0
      · rw [if_pos hv0] at h
        have huv : u ≠ v := by
          intro he; subst he; exact hu hv0
        have hopp_le : ∀ c : Nat, oppColor c ≤ 2 := by
          intro c; unfold oppColor
          by_cases h1 : c = 1 <;> simp [h1]
        have hopp_ne : ∀ c : Nat, oppColor c ≠ 0 := by
          intro c; unfold oppColor
          by_cases h1 : c = 1 <;> simp [h1]
        obtain ⟨e1, e2, e3, e4, e5, e6⟩ := ih
          (fun x => if x = v then oppColor (color u) else color x) (adds ++ [v])
          color' adds' h
          (by simp only [if_neg huv]; exact hu)
          (by
            intro x hx
            rcases List.mem_append.mp hx with hx | hx
            · have hx0 := hadds x hx
              have hxv : x ≠ v := by
                intro he; subst he; exact hx0 hv0
              simpa [hxv] using hx0
            · have hxv : x = v := by simpa using hx
              subst hxv
              simp [hopp_ne])
          (by
            intro x
            by_cases hxv : x = v
            · simp [hxv, hopp_le]
            · simp [hxv, hle x])
        have hc1u : (if u = v then oppColor (color u) else color u) = color u := by
          rw [if_neg huv]
        have hcu : color' u = color u := by
          rw [e1 u (by rw [hc1u]; exact hu), hc1u]
        refine ⟨?_, e2, e3, ?_, ?_, ?_⟩
        · intro x hx
          have hxv : x ≠ v := by
            intro he; subst he; exact hx hv0
          rw [e1 x (by simpa [hxv] using hx)]
          simp [hxv]
        · intro x hx
          exact e4 x (List.mem_append.mpr (Or.inl hx))
        · intro x hx
          rcases e5 x hx with h1 | h1
          · by_cases hxv : x = v
            · subst hxv
              exact Or.inr (e4 x (List.mem_append.mpr
                (Or.inr (List.mem_singleton_self x))))
            · rw [if_neg hxv] at h1
              exact Or.inl h1
          · exact Or.inr h1
        · intro j hj hadj'
          rcases List.mem_cons.mp hj with rfl | hjvs
          · have hcv : color' j = oppColor (color u) := by
              rw [e1 j (by simp [hopp_ne])]
              simp
            refine ⟨by rw [hcv]; exact hopp_ne _, ?_⟩
            rw [hcv, hcu]
            unfold oppColor
            by_cases h1 : color u = 1
            · simp [h1]
            · have h2 : color u = 2 := by
                have := hle u; omega
              rw [if_neg h1, h2]
              omega
          · exact e6 j hjvs hadj'
      · rw [if_neg hv0] at h
        by_cases hvc : color v = color u
        · rw [if_pos hvc] at h; cases h
        · rw [if_neg hvc] at h
          obtain ⟨e1, e2, e3, e4, e5, e6⟩ := ih color adds color' adds' h hu hadds hle
          refine ⟨e1, e2, e3, e4, e5, ?_⟩
          intro j hj hadj'
          rcases List.mem_cons.mp hj with rfl | hjvs
          · refine ⟨by rw [e1 j hv0]; exact hv0, ?_⟩
            rw [e1 j hv0, e1 u hu]
            exact hvc
          · exact e6 j hjvs hadj'
    · rw [if_neg hadj] at h
      obtain ⟨e1, e2, e3, e4, e5, e6⟩ := ih color adds color' adds' h hu hadds hle
      refine ⟨e1, e2, e3, e4, e5, ?_⟩
      intro j hj hadj'
      rcases List.mem_cons.mp hj with rfl | hjvs
      · exact absurd hadj' hadj
      · exact e6 j hjvs hadj'

/-- Specification of the BFS queue loop: on success, set colours are final,
stay at most 2, and every coloured vertex ends up with all its in-range
neighbours coloured differently. -/
theorem bfsColor_spec (G : Graph) :
    ∀ fuel queue color c,
      bfsColor G fuel queue color = some c →
      (∀ x ∈ queue, color x ≠ 0) →
      (∀ x, color x ≤ 2) →
      (∀ v, color v ≠ 0 → v ∈ queue ∨
        (∀ j < G.node_count, G.adjacency v j = true →
          color j ≠ 0 ∧ color j ≠ color v)) →
      ((∀ x, color x ≠ 0 → c x = color x) ∧
       (∀ x, c x ≤ 2) ∧
       (∀ v, c v ≠ 0 →
         ∀ j < G.node_count, G.adjacency v j = true → c j ≠ 0 ∧ c j ≠ c v)) := by
  intro fuel
  induction fuel with
  | zero =>
    intro queue color c h hq hle hscan
    cases queue with
    | nil =>
      have hc : color = c := by simpa [bfsColor] using h
      subst hc
      refine ⟨fun x _ => rfl, hle, ?_⟩
      intro v hv
      rcases hscan v hv with h1 | h1
      · cases h1
      · exact h1
    | cons u rest => simp [bfsColor] at h
  | succ fuel ih =>
    intro queue color c h hq hle hscan
    cases queue with
    | nil =>
      have hc : color = c := by simpa [bfsColor] using h
      subst hc
      refine ⟨fun x _ => rfl, hle, ?_⟩
      intro v hv
      rcases hscan v hv with h1 | h1
      · cases h1
      · exact h1
    | cons u rest =>
      simp only [bfsColor] at h
      cases hscan_eq : scanAdj G u (List.range G.node_count) color [] with
      | none => rw [hscan_eq] at h; cases h
      | some pr =>
        obtain ⟨color1, adds⟩ := pr
        rw [hscan_eq] at h
        dsimp only at h
        obtain ⟨e1, e2, e3, _, e5, e6⟩ := scanAdj_spec G u
          (List.range G.node_count) color [] color1 adds hscan_eq
          (hq u (List.mem_cons_self u rest))
          (fun x hx => absurd hx (List.not_mem_nil x)) hle
        obtain ⟨f1, f2, f3⟩ := ih (rest ++ adds) color1 c h
          (by
            intro x hx
            rcases List.mem_append.mp hx with hx | hx
            · have h0 := hq x (List.mem_cons_of_mem u hx)
              rw [e1 x h0]; exact h0
            · exact e3 x hx)
          e2
          (by
            intro v hv
            rcases e5 v hv with hv0 | hv0
            · rcases hscan v hv0 with hmem | hsc
              · rcases List.mem_cons.mp hmem with rfl | hrest
                · right
                  intro j hj hadj
                  exact e6 j (List.mem_range.mpr hj) hadj
                · exact Or.inl (List.mem_append.mpr (Or.inl hrest))
              · right
                intro j hj hadj
                obtain ⟨hj0, hjne⟩ := hsc j hj hadj
                rw [e1 j hj0, e1 v hv0]
                exact ⟨hj0, hjne⟩
            · exact Or.inl (List.mem_append.mpr (Or.inr hv0)))
        refine ⟨?_, f2, f3⟩
        intro x hx
        rw [f1 x (by rw [e1 x hx]; exact hx), e1 x hx]

/-- Specification of the component loop of is_bipartite_partition: on
success every vertex of the scanned list is coloured, colours are at most
2, and every coloured vertex has all in-range neighbours coloured
differently. -/
theorem colorAll_spec (G : Graph) :
    ∀ ss color c,
      colorAll G ss color = some c →
      (∀ x, color x ≤ 2) →
      (∀ v, color v ≠ 0 →
        ∀ j < G.node_count, G.adjacency v j = true →
          color j ≠ 0 ∧ color j ≠ color v) →
      ((∀ x, color x ≠ 0 → c x = color x) ∧
       (∀ x, c x ≤ 2) ∧
       (∀ v, c v ≠ 0 →
         ∀ j < G.node_count, G.adjacency v j = true → c j ≠ 0 ∧ c j ≠ c v) ∧
       (∀ s ∈ ss, c s ≠ 0)) := by
  intro ss
  induction ss with
  | nil =>
    intro color c h hle hscan
    have hc : color = c := by simpa [colorAll] using h
    subst hc
    exact ⟨fun x _ => rfl, hle, hscan, fun s hs => absurd hs (List.not_mem_nil s)⟩
  | cons s ss ih =>
    intro color c h hle hscan
    simp only [colorAll] at h
    by_cases hs : color s ≠ 0
    · rw [if_pos hs] at h
      obtain ⟨e1, e2, e3, e4⟩ := ih color c h hle hscan
      refine ⟨e1, e2, e3, ?_⟩
      intro t ht
      rcases List.mem_cons.mp ht with rfl | htss
      · rw [e1 t hs]; exact hs
      · exact e4 t htss
    · rw [if_neg hs] at h
      have hs0 : color s = 0 := not_ne_iff.mp hs
      cases hbfs : bfsColor G G.node_count [s]
          (fun x => if x = s then 1 else color x) with
      | none => rw [hbfs] at h; cases h
      | some c1 =>
        rw [hbfs] at h
        dsimp only at h
        obtain ⟨b1, b2, b3⟩ := bfsColor_spec G G.node_count [s]
          (fun x => if x = s then 1 else color x) c1 hbfs
          (by
            intro x hx
            have hxs : x = s := by simpa using hx
            subst hxs
            simp)
          (by
            intro x
            by_cases hxs : x = s
            · simp [hxs]
            · simp [hxs, hle x])
          (by
            intro v hv
            dsimp only at hv ⊢
            by_cases hvs : v = s
            · subst hvs
              exact Or.inl (List.mem_singleton_self v)
            · rw [if_neg hvs] at hv
              right
              intro j hj hadj
              obtain ⟨hj0, hjne⟩ := hscan v hv j hj hadj
              have hjs : j ≠ s := by
                intro he; subst he; exact hj0 hs0
              simp only [if_neg hjs, if_neg hvs]
              exact ⟨hj0, hjne⟩)
        obtain ⟨e1, e2, e3, e4⟩ := ih c1 c h b2 b3
        have hsc1 : c1 s = 1 := by
          have := b1 s (by simp)
          simpa using this
        refine ⟨?_, e2, e3, ?_⟩
        · intro x hx
          have hxs : x ≠ s := by
            intro he; subst he; exact hx hs0
          have hup : (if x = s then 1 else color x) = color x := if_neg hxs
          have hc1x : c1 x = color x := by
            rw [b1 x (by rw [hup]; exact hx), hup]
          rw [e1 x (by rw [hc1x]; exact hx), hc1x]
        · intro t ht
          rcases List.mem_cons.mp ht with rfl | htss
          · rw [e1 t (by rw [hsc1]; omega), hsc1]
            omega
          · exact e4 t htss

/-- C9: vertex_cover_bipartite_konig returns the absent result (and nothing
else) on every directed graph and on every graph admitting no proper
2-colouring: had the BFS colouring succeeded, its colour classes would be a
proper 2-colouring. -/
theorem claim_C9_konig_rejects (G : Graph)
    (h : G.is_directed = true ∨ ¬ ∃ b : Nat → Bool, IsProperColoring G b) :
    vertex_cover_bipartite_konig G = none := by
  rcases h with hd | hnb
  · simp [vertex_cover_bipartite_konig, hd]
  · by_cases hd : G.is_directed = true
    · simp [vertex_cover_bipartite_konig, hd]
    · have hd' : G.is_directed = false := by
        rw [Bool.not_eq_true] at hd; exact hd
      cases hcol : colorAll G (List.range G.node_count) (fun _ => 0) with
      | none =>
        simp [vertex_cover_bipartite_konig, is_bipartite_partition, hd', hcol]
      | some c =>
        exfalso
        apply hnb
        obtain ⟨_, hle, hscan, hall⟩ := colorAll_spec G
          (List.range G.node_count) (fun _ => 0) c hcol
          (fun x => Nat.zero_le 2)
          (fun v hv => absurd rfl hv)
        refine ⟨fun i => decide (c i = 1), ?_⟩
        intro i hi j hj hadj
        have hi0 : c i ≠ 0 := hall i (List.mem_range.mpr hi)
        obtain ⟨hj0, hne⟩ := hscan i hi0 j hj hadj
        intro heq
        rw [decide_eq_decide] at heq
        by_cases h1 : c i = 1
        · exact hne ((heq.mp h1) ▸ h1 ▸ rfl)
        · have hi2 : c i = 2 := by have := hle i; omega
          have hj1 : c j ≠ 1 := fun hj1 => h1 (heq.mpr hj1)
          have hj2 : c j = 2 := by have := hle j; omega
          exact hne (by rw [hj2, hi2])

/-- C9 witness: the triangle is undirected and not 2-colourable, so the
König cover entry point rejects it. -/
theorem claim_C9_witness : vertex_cover_bipartite_konig Gtri = none := by
  apply claim_C9_konig_rejects
  right
  rintro ⟨b, hb⟩
  have h01 := hb 0 (by decide) 1 (by decide) (by decide)
  have h12 := hb 1 (by decide) 2 (by decide) (by decide)
  have h20 := hb 2 (by decide) 0 (by decide) (by decide)
  cases hb0 : b 0 <;> cases hb1 : b 1 <;> cases hb2 : b 2 <;>
    simp_all
